import Mathlib

/-!
# SingleLinkedList: a verification development

A shallow embedding of `single-linked-list/single-linked-list.h`.

* The free store is a finite sequence of cells. `new` takes the first address
  past the end of the sequence and `delete` empties a cell, so an address
  returned by `new` is never that of a live node.
* A `Node*` stored in a node is `Option Nat` (`none` is `nullptr`).
* A list object is its two fields: `head_.next_node` and `size_`. The value
  stored in the sentinel `head_` is never read by the class and is left out.
* The `Node*` held by an iterator is `nullptr`, the address of the sentinel of
  the list the member function is called on, or the address of a heap node.
* `size_t` is a natural number: `++size_` is `+ 1` (the counter is bounded by
  the number of live nodes, which the address space keeps below `2 ^ 64`) and
  `--size_` wraps from `0` to `2 ^ 64 - 1`.
* A dereference of `nullptr` or of an address that holds no live node is
  undefined behaviour, reported as `none` or `Outcome.undefined`.
* Loops whose termination depends on the shape of the heap take a bound on the
  number of iterations; `Outcome.timeout` reports that the bound was reached.
* The standard algorithms the header calls, `std::equal` and
  `std::lexicographical_compare`, are written out from their specified
  behaviour over the iterator operations; `std::swap` on a field exchanges
  the two values.
* List objects of a program are held in a `World`, indexed by their address,
  where the identity of an object matters (`this == &rhs`, `swap`).
-/

namespace SLL

/-! ## Nodes and the free store -/

/-- The nested `struct Node`: a value and the `next_node` pointer. -/
structure Node (α : Type) where
  value : α
  next_node : Option Nat
deriving DecidableEq, Repr

/-- The free store: cell `a` is `some n` when address `a` holds the live node `n`. -/
structure Heap (α : Type) where
  cells : List (Option (Node α))
deriving DecidableEq, Repr

namespace Heap

variable {α : Type}

/-- The store with no node allocated. -/
def empty : Heap α := ⟨[]⟩

/-- Number of addresses handed out so far; also the next address `new` returns. -/
def size (h : Heap α) : Nat := h.cells.length

/-- The node stored at address `a`, `none` when there is no live node there. -/
def read (h : Heap α) (a : Nat) : Option (Node α) := h.cells[a]?.join

/-- The allocation of `new Node(...)`: the node is placed at a fresh address. -/
def alloc (h : Heap α) (n : Node α) : Nat × Heap α := (h.size, ⟨h.cells ++ [some n]⟩)

/-- Assignment to the fields of the node at address `a`. -/
def write (h : Heap α) (a : Nat) (n : Node α) : Heap α := ⟨h.cells.set a (some n)⟩

/-- The statement `delete p` for `p` the address `a`. -/
def free (h : Heap α) (a : Nat) : Heap α := ⟨h.cells.set a none⟩

end Heap

/-! ## Results of running member functions -/

/-- How a call ends: a normal return with state `σ`, an exception that leaves
the state `ε` behind once the stack is unwound, undefined behaviour, or the
iteration bound reached. -/
inductive Outcome (ε σ : Type) where
  | ok (s : σ)
  | threw (e : ε)
  | undefined
  | timeout
deriving DecidableEq, Repr

/-- The fields of a `SingleLinkedList<Type>` object: `head_.next_node` and `size_`. -/
structure SingleLinkedList where
  head_next_node : Option Nat
  size_ : Nat
deriving DecidableEq, Repr

/-- The values of a `Node*` held by an iterator: `nullptr`, `&head_` of the list
the member function is called on, or the address of a node in the free store. -/
inductive NodePtr where
  | null
  | head
  | node (a : Nat)
deriving DecidableEq, Repr

/-- Conversion of a stored `next_node` pointer to an iterator's pointer. -/
def NodePtr.ofNext : Option Nat → NodePtr
  | none => NodePtr.null
  | some a => NodePtr.node a

/-- The class `BasicIterator<ValueType>`: its only field is `node_`. -/
structure BasicIterator where
  node_ : NodePtr
deriving DecidableEq, Repr

/-- The unsigned decrement `--size_` on a 64-bit `size_t`. -/
def size_t_dec (n : Nat) : Nat := if n = 0 then 2 ^ 64 - 1 else n - 1

namespace SingleLinkedList

variable {α : Type}

/-- The expression `p->next_node`; `none` when `p` cannot be dereferenced. -/
def next_node (h : Heap α) (l : SingleLinkedList) : NodePtr → Option (Option Nat)
  | NodePtr.null => none
  | NodePtr.head => some l.head_next_node
  | NodePtr.node a => (h.read a).map fun n => n.next_node

/-- The assignment `p->next_node = q`; `none` when `p` cannot be dereferenced. -/
def set_next_node (h : Heap α) (l : SingleLinkedList) :
    NodePtr → Option Nat → Option (Heap α × SingleLinkedList)
  | NodePtr.null, _ => none
  | NodePtr.head, q => some (h, { l with head_next_node := q })
  | NodePtr.node a, q =>
    match h.read a with
    | none => none
    | some n => some (h.write a { n with next_node := q }, l)

/-- The default constructor `SingleLinkedList() {}`: `head_.next_node` is
`nullptr` and `size_` is `0` by the default member initialisers. -/
def empty : SingleLinkedList := ⟨none, 0⟩

/-- The member `begin()`. -/
def begin (l : SingleLinkedList) : BasicIterator := ⟨NodePtr.ofNext l.head_next_node⟩

/-- The member `cbegin()`. -/
def cbegin (l : SingleLinkedList) : BasicIterator := ⟨NodePtr.ofNext l.head_next_node⟩

/-- The member `cend()` (and `end()`): an iterator holding `nullptr`. -/
def cend (_l : SingleLinkedList) : BasicIterator := ⟨NodePtr.null⟩

/-- The member `before_begin()`: an iterator holding `&head_`. -/
def before_begin (_l : SingleLinkedList) : BasicIterator := ⟨NodePtr.head⟩

/-- The member `GetSize()`. -/
def GetSize (l : SingleLinkedList) : Nat := l.size_

/-- The member `IsEmpty()`. -/
def IsEmpty (l : SingleLinkedList) : Bool := if l.size_ ≠ 0 then false else true

/-- The member `swap(other)`: the two `std::swap` calls on the fields. The
result is the pair (this object, `other`) after the call. -/
def swap (l other : SingleLinkedList) : SingleLinkedList × SingleLinkedList :=
  (⟨other.head_next_node, other.size_⟩, ⟨l.head_next_node, l.size_⟩)

/-- The member `PushFront(value)`. -/
def PushFront (h : Heap α) (l : SingleLinkedList) (value : α) : Heap α × SingleLinkedList :=
  let (a, h1) := h.alloc ⟨value, l.head_next_node⟩
  (h1, ⟨some a, l.size_ + 1⟩)

/-- The member `InsertAfter(pos, value)`. -/
def InsertAfter (h : Heap α) (l : SingleLinkedList) (pos : BasicIterator) (value : α) :
    Option (BasicIterator × Heap α × SingleLinkedList) :=
  let (insert_item, h1) := h.alloc ⟨value, none⟩
  match next_node h1 l pos.node_ with
  | none => none
  | some nx =>
    let h2 := h1.write insert_item ⟨value, nx⟩
    match set_next_node h2 l pos.node_ (some insert_item) with
    | none => none
    | some (h3, l3) => some (⟨NodePtr.node insert_item⟩, h3, { l3 with size_ := l3.size_ + 1 })

/-- The member `PopFront()`. -/
def PopFront (h : Heap α) (l : SingleLinkedList) : Option (Heap α × SingleLinkedList) :=
  if l.size_ = 0 then some (h, l)
  else
    match l.head_next_node with
    | none => none
    | some delete_item =>
      match h.read delete_item with
      | none => none
      | some n => some (h.free delete_item, ⟨n.next_node, size_t_dec l.size_⟩)

/-- The member `EraseAfter(pos)`. -/
def EraseAfter (h : Heap α) (l : SingleLinkedList) (pos : BasicIterator) :
    Option (BasicIterator × Heap α × SingleLinkedList) :=
  match next_node h l pos.node_ with
  | none => none
  | some none => some (⟨NodePtr.null⟩, h, l)
  | some (some delete_item) =>
    match h.read delete_item with
    | none => none
    | some n =>
      match set_next_node h l pos.node_ n.next_node with
      | none => none
      | some (h1, l1) =>
        let h2 := h1.free delete_item
        let l2 : SingleLinkedList := { l1 with size_ := size_t_dec l1.size_ }
        match next_node h2 l2 pos.node_ with
        | none => none
        | some nx => some (⟨NodePtr.ofNext nx⟩, h2, l2)

/-- The loop `while (head_.next_node) { ... }` of `Clear()`; the third argument
is the current `head_.next_node`. -/
def ClearLoop : Nat → Heap α → Option Nat → Outcome Empty (Heap α)
  | _, h, none => Outcome.ok h
  | 0, _, some _ => Outcome.timeout
  | fuel + 1, h, some a =>
    match h.read a with
    | none => Outcome.undefined
    | some n => ClearLoop fuel (h.free a) n.next_node

/-- The member `Clear()`, also run by the destructor. -/
def Clear (fuel : Nat) (h : Heap α) (l : SingleLinkedList) :
    Outcome Empty (Heap α × SingleLinkedList) :=
  if l.size_ = 0 then Outcome.ok (h, l)
  else
    match ClearLoop fuel h l.head_next_node with
    | Outcome.ok h1 => Outcome.ok (h1, ⟨none, 0⟩)
    | Outcome.threw e => Outcome.threw e
    | Outcome.undefined => Outcome.undefined
    | Outcome.timeout => Outcome.timeout

/-! ## Iterators -/

/-- The operations a range `[begin, end)` passed to `Copy` or to a standard
algorithm offers: `*it`, `++it` and `it == other`. Dereference and increment
are `none` where they are undefined. -/
structure InputIt (α ι : Type) where
  deref : Heap α → ι → Option α
  incr : Heap α → ι → Option ι
  eq : ι → ι → Bool

/-- The pointers into the array of a `std::initializer_list<Type>` holding
`values`, as offsets from its first element. -/
def arrayIt (values : List α) : InputIt α Nat where
  deref := fun _ i => values[i]?
  incr := fun _ i => some (i + 1)
  eq := fun i j => decide (i = j)

/-- The member `operator*` of `BasicIterator`. The value of the sentinel is not
part of the model, so only heap nodes can be dereferenced. -/
def deref (h : Heap α) (it : BasicIterator) : Option α :=
  match it.node_ with
  | NodePtr.node a => (h.read a).map fun n => n.value
  | _ => none

/-- The member `operator++` of `BasicIterator`, for an iterator of the list `l`. -/
def incr (h : Heap α) (l : SingleLinkedList) (it : BasicIterator) : Option BasicIterator :=
  (next_node h l it.node_).map fun nx => ⟨NodePtr.ofNext nx⟩

/-- The iterators `BasicIterator` of the list `l`: `operator==` compares `node_`. -/
def listIt (l : SingleLinkedList) : InputIt α BasicIterator where
  deref := deref
  incr := fun h it => incr h l it
  eq := fun i j => decide (i.node_ = j.node_)

/-- The client loop `for (it = first; it != last; ++it) out.push_back(*it)`. -/
def collect {ι : Type} (I : InputIt α ι) : Nat → Heap α → ι → ι → Outcome Empty (List α)
  | fuel, h, first, last =>
    if I.eq first last then Outcome.ok []
    else
      match fuel with
      | 0 => Outcome.timeout
      | fuel + 1 =>
        match I.deref h first with
        | none => Outcome.undefined
        | some v =>
          match I.incr h first with
          | none => Outcome.undefined
          | some next =>
            match collect I fuel h next last with
            | Outcome.ok vs => Outcome.ok (v :: vs)
            | Outcome.threw e => Outcome.threw e
            | Outcome.undefined => Outcome.undefined
            | Outcome.timeout => Outcome.timeout

/-- The element sequence seen by iterating the list from `begin()` to `end()`. -/
def toList (fuel : Nat) (h : Heap α) (l : SingleLinkedList) : Outcome Empty (List α) :=
  collect (listIt l) fuel h l.begin l.cend

/-! ## Copying -/

/-- The destructor `~SingleLinkedList()` run on a local object when its scope
is left; what remains is the free store. -/
def destroy (fuel : Nat) (h : Heap α) (l : SingleLinkedList) : Outcome Empty (Heap α) :=
  match Clear fuel h l with
  | Outcome.ok (h1, _) => Outcome.ok h1
  | Outcome.threw e => Outcome.threw e
  | Outcome.undefined => Outcome.undefined
  | Outcome.timeout => Outcome.timeout

/-- The loop `while (begin != end) { ... }` of `Copy`. `throws k v` tells whether
the copy constructor of `Type` throws when the `k`-th element of the range,
of value `v`, is copied into a new node; in that case `new` releases the
storage it obtained, so the free store is as before the `new` expression. The
result on a throw is the state in which the exception leaves the loop. -/
def CopyLoop {ι : Type} (I : InputIt α ι) (throws : Nat → α → Bool) :
    Nat → Heap α → SingleLinkedList → Nat → Nat → ι → ι →
      Outcome (Heap α × SingleLinkedList) (Heap α × SingleLinkedList)
  | fuel, h, tmp, runner, k, first, last =>
    if I.eq first last then Outcome.ok (h, tmp)
    else
      match fuel with
      | 0 => Outcome.timeout
      | fuel + 1 =>
        match I.deref h first with
        | none => Outcome.undefined
        | some v =>
          if throws k v then Outcome.threw (h, tmp)
          else
            let (a, h1) := h.alloc ⟨v, none⟩
            match h1.read runner with
            | none => Outcome.undefined
            | some r =>
              let h2 := h1.write runner { r with next_node := some a }
              match I.incr h2 first with
              | none => Outcome.undefined
              | some next =>
                CopyLoop I throws fuel h2 { tmp with size_ := tmp.size_ + 1 } a (k + 1) next last

/-- The member template `Copy(begin, end)`. An exception leaves the object
untouched; the state it leaves behind is the free store after the local `tmp`
has been destroyed. -/
def Copy {ι : Type} (I : InputIt α ι) (throws : Nat → α → Bool) (fuel : Nat) (h : Heap α)
    (l : SingleLinkedList) (first last : ι) : Outcome (Heap α) (Heap α × SingleLinkedList) :=
  if I.eq first last then Outcome.ok (h, l)
  else
    let tmp : SingleLinkedList := empty
    match I.deref h first with
    | none => Outcome.undefined
    | some v =>
      if throws 0 v then
        match destroy fuel h tmp with
        | Outcome.ok h1 => Outcome.threw h1
        | Outcome.threw e => nomatch e
        | Outcome.undefined => Outcome.undefined
        | Outcome.timeout => Outcome.timeout
      else
        let (a, h1) := h.alloc ⟨v, none⟩
        let tmp : SingleLinkedList := { tmp with head_next_node := some a }
        let tmp : SingleLinkedList := { tmp with size_ := tmp.size_ + 1 }
        match I.incr h1 first with
        | none => Outcome.undefined
        | some next =>
          match CopyLoop I throws fuel h1 tmp a 1 next last with
          | Outcome.ok (h2, tmp) =>
            let (l1, tmp) := swap l tmp
            match destroy fuel h2 tmp with
            | Outcome.ok h3 => Outcome.ok (h3, l1)
            | Outcome.threw e => nomatch e
            | Outcome.undefined => Outcome.undefined
            | Outcome.timeout => Outcome.timeout
          | Outcome.threw (h2, tmp) =>
            match destroy fuel h2 tmp with
            | Outcome.ok h3 => Outcome.threw h3
            | Outcome.threw e => nomatch e
            | Outcome.undefined => Outcome.undefined
            | Outcome.timeout => Outcome.timeout
          | Outcome.undefined => Outcome.undefined
          | Outcome.timeout => Outcome.timeout

/-- The constructor `SingleLinkedList(std::initializer_list<Type> values)`. -/
def ofInitializerList (throws : Nat → α → Bool) (fuel : Nat) (h : Heap α) (values : List α) :
    Outcome (Heap α) (Heap α × SingleLinkedList) :=
  Copy (arrayIt values) throws fuel h empty 0 values.length

/-- The copy constructor `SingleLinkedList(const SingleLinkedList& other)`. -/
def copyConstruct (throws : Nat → α → Bool) (fuel : Nat) (h : Heap α) (other : SingleLinkedList) :
    Outcome (Heap α) (Heap α × SingleLinkedList) :=
  Copy (listIt other) throws fuel h empty other.cbegin other.cend

/-- A copy constructor of `Type` that never throws. -/
def noThrow : Nat → α → Bool := fun _ _ => false

end SingleLinkedList

/-! ## Several list objects -/

/-- The free store together with the list objects of the program, each known
by its address. -/
structure World (α : Type) where
  heap : Heap α
  objs : Nat → SingleLinkedList

namespace SingleLinkedList

variable {α : Type}

/-- The copy assignment `operator=(rhs)` called on the object at address
`this`, with `rhs` the object at address `rhs`. -/
def assign (throws : Nat → α → Bool) (fuel : Nat) (w : World α) (this rhs : Nat) :
    Outcome (World α) (World α) :=
  if this = rhs then Outcome.ok w
  else
    match copyConstruct throws fuel w.heap (w.objs rhs) with
    | Outcome.ok (h1, tmp) =>
      let (l1, tmp) := swap (w.objs this) tmp
      match destroy fuel h1 tmp with
      | Outcome.ok h2 => Outcome.ok ⟨h2, fun o => if o = this then l1 else w.objs o⟩
      | Outcome.threw e => nomatch e
      | Outcome.undefined => Outcome.undefined
      | Outcome.timeout => Outcome.timeout
    | Outcome.threw h1 => Outcome.threw ⟨h1, w.objs⟩
    | Outcome.undefined => Outcome.undefined
    | Outcome.timeout => Outcome.timeout

end SingleLinkedList

/-! ## The class invariant -/

section Representation

open SingleLinkedList

variable {α : Type}

/-- Following `next_node` from the pointer `p` visits exactly the nodes
`nodes`, given as (address, value) pairs in order, and then arrives at `q`. -/
def Seg (h : Heap α) : Option Nat → List (Nat × α) → Option Nat → Prop
  | p, [], q => p = q
  | p, (a, x) :: rest, q => p = some a ∧ ∃ nx, h.read a = some ⟨x, nx⟩ ∧ Seg h nx rest q

/-- The chain starting at `p` consists of `nodes` and ends in `nullptr`. -/
def Chain (h : Heap α) (p : Option Nat) (nodes : List (Nat × α)) : Prop :=
  Seg h p nodes none

/-- The list object `l` owns the chain `nodes` and `size_` counts its nodes. -/
def Holds (h : Heap α) (l : SingleLinkedList) (nodes : List (Nat × α)) : Prop :=
  Chain h l.head_next_node nodes ∧ l.size_ = nodes.length

/-- Addresses of the nodes of a chain. -/
def addrs (nodes : List (Nat × α)) : List Nat := nodes.map Prod.fst

/-- Values of the nodes of a chain, in iteration order. -/
def values (nodes : List (Nat × α)) : List α := nodes.map Prod.snd

/-- The iterator at position `k` of a list owning `nodes`: `before_begin()` for
`k = 0`, an iterator to the `k`-th element for `1 ≤ k ≤ nodes.length`, and the
end iterator past that. -/
def posAt (nodes : List (Nat × α)) : Nat → BasicIterator
  | 0 => ⟨NodePtr.head⟩
  | k + 1 => ⟨NodePtr.ofNext (nodes[k]?.map Prod.fst)⟩

/-- The free store `h1` has every cell of `h0` unchanged (it may have more). -/
def Heap.Extends (h0 h1 : Heap α) : Prop :=
  h0.size ≤ h1.size ∧ ∀ a, a < h0.size → h1.read a = h0.read a

/-- The range `[first, last)` reads as the values `vs` in every free store
satisfying `P`: the iterators met on the way, and the values they give, do
not depend on which such store is current. -/
def Reads {ι : Type} (I : InputIt α ι) (P : Heap α → Prop) : ι → List α → ι → Prop
  | first, [], last => I.eq first last = true
  | first, v :: vs, last =>
    I.eq first last = false ∧
      ∃ next, (∀ h, P h → I.deref h first = some v ∧ I.incr h first = some next) ∧
        Reads I P next vs last

end Representation

/-! ## Comparison and mutation -/

section Comparison

open SingleLinkedList

variable {α : Type}

/-- The three-iterator overload `std::equal(first1, last1, first2)` of the
standard library: it walks `[first1, last1)` and the range starting at
`first2` in step, returns `false` at the first pair of unequal elements and
`true` when `first1` reaches `last1`. It never compares `first2` with an end
iterator. -/
def std_equal {ι₁ ι₂ : Type} [BEq α] (I₁ : InputIt α ι₁) (I₂ : InputIt α ι₂) :
    Nat → Heap α → ι₁ → ι₁ → ι₂ → Outcome Empty Bool
  | fuel, h, first1, last1, first2 =>
    if I₁.eq first1 last1 then Outcome.ok true
    else
      match fuel with
      | 0 => Outcome.timeout
      | fuel + 1 =>
        match I₁.deref h first1, I₂.deref h first2 with
        | some x, some y =>
          if !(x == y) then Outcome.ok false
          else
            match I₁.incr h first1, I₂.incr h first2 with
            | some next1, some next2 => std_equal I₁ I₂ fuel h next1 last1 next2
            | _, _ => Outcome.undefined
        | _, _ => Outcome.undefined

/-- The free function `operator==(lhs, rhs)`. -/
def operator_eq [BEq α] (fuel : Nat) (h : Heap α) (lhs rhs : SingleLinkedList) :
    Outcome Empty Bool :=
  std_equal (listIt lhs) (listIt rhs) fuel h lhs.cbegin lhs.cend rhs.cbegin

/-- The free function `operator!=(lhs, rhs)`. -/
def operator_ne [BEq α] (fuel : Nat) (h : Heap α) (lhs rhs : SingleLinkedList) :
    Outcome Empty Bool :=
  match operator_eq fuel h lhs rhs with
  | Outcome.ok b => Outcome.ok (!b)
  | Outcome.threw e => Outcome.threw e
  | Outcome.undefined => Outcome.undefined
  | Outcome.timeout => Outcome.timeout

/-- A call of one of the mutating member functions. -/
inductive Mutation (α : Type) where
  | pushFront (value : α)
  | popFront
  | insertAfter (pos : BasicIterator) (value : α)
  | eraseAfter (pos : BasicIterator)
  | clear

/-- The state after the call `m` on the list `l`. -/
def Mutation.apply (fuel : Nat) (h : Heap α) (l : SingleLinkedList) :
    Mutation α → Outcome Empty (Heap α × SingleLinkedList)
  | Mutation.pushFront value => Outcome.ok (PushFront h l value)
  | Mutation.popFront =>
    match PopFront h l with
    | some s => Outcome.ok s
    | none => Outcome.undefined
  | Mutation.insertAfter pos value =>
    match InsertAfter h l pos value with
    | some (_, s) => Outcome.ok s
    | none => Outcome.undefined
  | Mutation.eraseAfter pos =>
    match EraseAfter h l pos with
    | some (_, s) => Outcome.ok s
    | none => Outcome.undefined
  | Mutation.clear => Clear fuel h l

/-- The iterator argument of the call `m`, if it has one, is a position of a
list that owns `nodes`: `before_begin()` or an iterator to one of its nodes. -/
def Mutation.ValidFor (nodes : List (Nat × α)) : Mutation α → Prop
  | Mutation.insertAfter pos _ => ∃ k, k ≤ nodes.length ∧ pos = posAt nodes k
  | Mutation.eraseAfter pos => ∃ k, k ≤ nodes.length ∧ pos = posAt nodes k
  | _ => True

/-- The calls `ms` made one after the other on the list `l`. -/
def Mutation.run (fuel : Nat) :
    Heap α → SingleLinkedList → List (Mutation α) → Outcome Empty (Heap α × SingleLinkedList)
  | h, l, [] => Outcome.ok (h, l)
  | h, l, m :: ms =>
    match m.apply fuel h l with
    | Outcome.ok (h1, l1) => Mutation.run fuel h1 l1 ms
    | Outcome.threw e => Outcome.threw e
    | Outcome.undefined => Outcome.undefined
    | Outcome.timeout => Outcome.timeout

/-- Every call of `ms` is made with an iterator that is a position of the list
as it is at the time of the call, and the list is then no longer than the
iteration bound. -/
def Mutation.ValidRun (fuel : Nat) :
    Heap α → SingleLinkedList → List (Mutation α) → Prop
  | _, _, [] => True
  | h, l, m :: ms =>
    (∃ nodes, Holds h l nodes ∧ m.ValidFor nodes ∧ nodes.length ≤ fuel) ∧
      ∀ h1 l1, m.apply fuel h l = Outcome.ok (h1, l1) → Mutation.ValidRun fuel h1 l1 ms

end Comparison


/-! ## Ordering, repeated calls and programs over several lists -/

/-- The free function `swap(lhs, rhs)`, which calls `lhs.swap(rhs)`. The
result is the pair (`lhs`, `rhs`) after the call. -/
def swap (lhs rhs : SingleLinkedList) : SingleLinkedList × SingleLinkedList :=
  lhs.swap rhs

section Ordering

open SingleLinkedList

variable {α : Type}

/-- The pointer reached from `p` by following `next_node` exactly `n` times;
`none` when a step would have to start from `nullptr` or from an address
that holds no live node. -/
def follow (h : Heap α) : Nat → Option Nat → Option (Option Nat)
  | 0, p => some p
  | _ + 1, none => none
  | n + 1, some a =>
    match h.read a with
    | none => none
    | some nd => follow h n nd.next_node

/-- The algorithm `std::lexicographical_compare(first1, last1, first2, last2)`
of the standard library with `lt` as the comparison of elements: while both
ranges have elements it returns `true` if the element of the first range is
less, `false` if the element of the second range is less, and moves on
otherwise; when a range is exhausted it returns whether the first range is
exhausted and the second is not. -/
def std_lexicographical_compare {ι₁ ι₂ : Type} (lt : α → α → Bool) (I₁ : InputIt α ι₁)
    (I₂ : InputIt α ι₂) : Nat → Heap α → ι₁ → ι₁ → ι₂ → ι₂ → Outcome Empty Bool
  | fuel, h, first1, last1, first2, last2 =>
    if !(I₁.eq first1 last1) && !(I₂.eq first2 last2) then
      match fuel with
      | 0 => Outcome.timeout
      | fuel + 1 =>
        match I₁.deref h first1, I₂.deref h first2 with
        | some x, some y =>
          if lt x y then Outcome.ok true
          else if lt y x then Outcome.ok false
          else
            match I₁.incr h first1, I₂.incr h first2 with
            | some next1, some next2 =>
              std_lexicographical_compare lt I₁ I₂ fuel h next1 last1 next2 last2
            | _, _ => Outcome.undefined
        | _, _ => Outcome.undefined
    else Outcome.ok (I₁.eq first1 last1 && !(I₂.eq first2 last2))

/-- The free function `operator<(lhs, rhs)`; `lt` is `operator<` of `Type`. -/
def operator_lt (lt : α → α → Bool) (fuel : Nat) (h : Heap α) (lhs rhs : SingleLinkedList) :
    Outcome Empty Bool :=
  std_lexicographical_compare lt (listIt lhs) (listIt rhs) fuel h lhs.begin lhs.cend
    rhs.begin rhs.cend

/-- The free function `operator<=(lhs, rhs)`: `!(rhs < lhs)`. -/
def operator_le (lt : α → α → Bool) (fuel : Nat) (h : Heap α) (lhs rhs : SingleLinkedList) :
    Outcome Empty Bool :=
  match operator_lt lt fuel h rhs lhs with
  | Outcome.ok b => Outcome.ok (!b)
  | Outcome.threw e => Outcome.threw e
  | Outcome.undefined => Outcome.undefined
  | Outcome.timeout => Outcome.timeout

/-- The free function `operator>(lhs, rhs)`: `rhs < lhs`. -/
def operator_gt (lt : α → α → Bool) (fuel : Nat) (h : Heap α) (lhs rhs : SingleLinkedList) :
    Outcome Empty Bool :=
  operator_lt lt fuel h rhs lhs

/-- The free function `operator>=(lhs, rhs)`: `!(lhs < rhs)`. -/
def operator_ge (lt : α → α → Bool) (fuel : Nat) (h : Heap α) (lhs rhs : SingleLinkedList) :
    Outcome Empty Bool :=
  match operator_lt lt fuel h lhs rhs with
  | Outcome.ok b => Outcome.ok (!b)
  | Outcome.threw e => Outcome.threw e
  | Outcome.undefined => Outcome.undefined
  | Outcome.timeout => Outcome.timeout

/-- Lexicographic comparison of two sequences as the specification words it:
the first sequence is less when, at the first position where the elements
differ (one is less than the other), its element is the lesser one, or when
there is no such position and it is strictly shorter. -/
def LexLess (lt : α → α → Bool) (xs ys : List α) : Prop :=
  ∃ i : Nat, (∀ j : Nat, j < i → ∃ x y : α, xs[j]? = some x ∧ ys[j]? = some y ∧
        lt x y = false ∧ lt y x = false) ∧
    ((∃ x y : α, xs[i]? = some x ∧ ys[i]? = some y ∧ lt x y = true) ∨
      (xs[i]? = none ∧ ∃ y : α, ys[i]? = some y))

/-- Lexicographic comparison of two sequences, computed from the front. -/
def lexLess (lt : α → α → Bool) : List α → List α → Bool
  | [], [] => false
  | [], _ :: _ => true
  | _ :: _, [] => false
  | x :: xs, y :: ys => if lt x y then true else if lt y x then false else lexLess lt xs ys

/-- The client loop that calls `PopFront()` `n` times in a row. -/
def PopFront_times : Nat → Heap α → SingleLinkedList → Option (Heap α × SingleLinkedList)
  | 0, h, l => some (h, l)
  | n + 1, h, l =>
    match PopFront h l with
    | none => none
    | some (h1, l1) => PopFront_times n h1 l1

/-- A call made by a program that works with several list objects, each named
by its address: a mutating member call, `Copy` over the array of an
initializer list or over the whole range of a list, copy assignment, or
`swap`. -/
inductive Op (α : Type) where
  | mutate (o : Nat) (m : Mutation α)
  | copyValues (o : Nat) (vals : List α)
  | copyList (o src : Nat)
  | assign (o rhs : Nat)
  | swap (o other : Nat)

/-- The state after the call `op`; an exception leaves the list objects as
they were. -/
def Op.apply (throws : Nat → α → Bool) (fuel : Nat) (w : World α) :
    Op α → Outcome (World α) (World α)
  | Op.mutate o m =>
    match m.apply fuel w.heap (w.objs o) with
    | Outcome.ok (h1, l1) => Outcome.ok ⟨h1, fun x => if x = o then l1 else w.objs x⟩
    | Outcome.threw e => nomatch e
    | Outcome.undefined => Outcome.undefined
    | Outcome.timeout => Outcome.timeout
  | Op.copyValues o vals =>
    match Copy (arrayIt vals) throws fuel w.heap (w.objs o) 0 vals.length with
    | Outcome.ok (h1, l1) => Outcome.ok ⟨h1, fun x => if x = o then l1 else w.objs x⟩
    | Outcome.threw h1 => Outcome.threw ⟨h1, w.objs⟩
    | Outcome.undefined => Outcome.undefined
    | Outcome.timeout => Outcome.timeout
  | Op.copyList o src =>
    match Copy (listIt (w.objs src)) throws fuel w.heap (w.objs o) (w.objs src).cbegin
        (w.objs src).cend with
    | Outcome.ok (h1, l1) => Outcome.ok ⟨h1, fun x => if x = o then l1 else w.objs x⟩
    | Outcome.threw h1 => Outcome.threw ⟨h1, w.objs⟩
    | Outcome.undefined => Outcome.undefined
    | Outcome.timeout => Outcome.timeout
  | Op.assign o rhs => SingleLinkedList.assign throws fuel w o rhs
  | Op.swap o other =>
    let (l1, l2) := SLL.swap (w.objs o) (w.objs other)
    Outcome.ok ⟨w.heap, fun x => if x = o then l1 else if x = other then l2 else w.objs x⟩

/-- The call `op` is made within the contract of the class and within the
iteration bound: an iterator argument is a position of the list it is passed
to, and the lists and ranges walked are no longer than `fuel`. -/
def Op.Valid (fuel : Nat) (w : World α) : Op α → Prop
  | Op.mutate o m =>
    (∃ nodes, Holds w.heap (w.objs o) nodes ∧ m.ValidFor nodes) ∧ (w.objs o).size_ ≤ fuel
  | Op.copyValues o vals => vals.length ≤ fuel ∧ (w.objs o).size_ ≤ fuel
  | Op.copyList o src => (w.objs src).size_ ≤ fuel ∧ (w.objs o).size_ ≤ fuel
  | Op.assign o rhs => (w.objs rhs).size_ ≤ fuel ∧ (w.objs o).size_ ≤ fuel
  | Op.swap _ _ => True

/-- The states a program can reach from a state in which every list object is
default-constructed, by calls made within the contract; a state left behind
by an exception counts as reached. -/
inductive Reachable (throws : Nat → α → Bool) (fuel : Nat) : World α → Prop where
  | init (h : Heap α) : Reachable throws fuel ⟨h, fun _ => SingleLinkedList.empty⟩
  | step_ok (w w1 : World α) (op : Op α) : Reachable throws fuel w → op.Valid fuel w →
      op.apply throws fuel w = Outcome.ok w1 → Reachable throws fuel w1
  | step_threw (w w1 : World α) (op : Op α) : Reachable throws fuel w → op.Valid fuel w →
      op.apply throws fuel w = Outcome.threw w1 → Reachable throws fuel w1

/-- The class invariant for a program state: every list object owns a chain
that its `size_` counts, and two distinct objects own no node in common. -/
def World.Inv (w : World α) : Prop :=
  ∃ owned : Nat → List (Nat × α), (∀ o, Holds w.heap (w.objs o) (owned o)) ∧
    ∀ o o1, o ≠ o1 → ∀ a, a ∈ addrs (owned o) → a ∉ addrs (owned o1)

end Ordering

/-! ## The free store: reading after an update -/

section HeapLemmas

variable {α : Type}

namespace Heap

theorem read_eq_none_of_size_le (h : Heap α) (a : Nat) (ha : h.size ≤ a) : h.read a = none := by
  unfold read size at *
  rw [List.getElem?_eq_none ha]; rfl

theorem lt_size_of_read (h : Heap α) (a : Nat) (n : Node α) (hr : h.read a = some n) :
    a < h.size := by
  by_contra hlt
  rw [read_eq_none_of_size_le h a (Nat.le_of_not_lt hlt)] at hr
  cases hr

@[simp] theorem size_alloc (h : Heap α) (n : Node α) : (h.alloc n).2.size = h.size + 1 := by
  simp [alloc, size]

@[simp] theorem fst_alloc (h : Heap α) (n : Node α) : (h.alloc n).1 = h.size := rfl

@[simp] theorem size_write (h : Heap α) (a : Nat) (n : Node α) : (h.write a n).size = h.size := by
  simp [write, size]

@[simp] theorem size_free (h : Heap α) (a : Nat) : (h.free a).size = h.size := by
  simp [free, size]

theorem read_alloc (h : Heap α) (n : Node α) (b : Nat) :
    (h.alloc n).2.read b = if b = h.size then some n else h.read b := by
  unfold alloc read size
  by_cases hb : b = h.cells.length
  · subst hb; simp
  · simp only [hb, if_false]
    rcases Nat.lt_or_gt_of_ne hb with hlt | hgt
    · simp [List.getElem?_append_left hlt]
    · have h1 : h.cells.length ≤ b := Nat.le_of_lt hgt
      simp [List.getElem?_append_right h1, List.getElem?_eq_none h1]
      have : b - h.cells.length ≠ 0 := by omega
      cases hk : b - h.cells.length with
      | zero => exact absurd hk this
      | succ k => simp

theorem read_write (h : Heap α) (a : Nat) (n : Node α) (b : Nat) (ha : a < h.size) :
    (h.write a n).read b = if b = a then some n else h.read b := by
  unfold write read size at *
  by_cases hb : b = a
  · subst hb; simp [List.getElem?_set, ha]
  · simp [List.getElem?_set, hb, Ne.symm hb]

theorem read_free (h : Heap α) (a b : Nat) :
    (h.free a).read b = if b = a then none else h.read b := by
  unfold free read
  by_cases hb : b = a
  · subst hb
    by_cases hlt : b < h.cells.length
    · simp [List.getElem?_set, hlt]
    · simp [List.getElem?_set, hlt]
  · simp [List.getElem?_set, hb, Ne.symm hb]

end Heap

end HeapLemmas

/-! ## Chains -/

section ChainLemmas

open SingleLinkedList

variable {α : Type}

@[simp] theorem Seg_nil (h : Heap α) (p q : Option Nat) : Seg h p [] q ↔ p = q := Iff.rfl

theorem Seg_cons (h : Heap α) (p q : Option Nat) (a : Nat) (x : α) (rest : List (Nat × α)) :
    Seg h p ((a, x) :: rest) q ↔
      p = some a ∧ ∃ nx, h.read a = some ⟨x, nx⟩ ∧ Seg h nx rest q := Iff.rfl

/-- A segment depends only on the cells of its own nodes. -/
theorem Seg_congr (h h1 : Heap α) (nodes : List (Nat × α)) (p q : Option Nat)
    (hs : Seg h p nodes q) (hrd : ∀ a, a ∈ addrs nodes → h1.read a = h.read a) :
    Seg h1 p nodes q := by
  induction nodes generalizing p with
  | nil => exact hs
  | cons n rest ih =>
    obtain ⟨a, x⟩ := n
    obtain ⟨hp, nx, hr, hrest⟩ := hs
    refine ⟨hp, nx, ?_, ih nx hrest fun b hb => hrd b ?_⟩
    · rw [hrd a (by simp [addrs])]; exact hr
    · simp only [addrs, List.map_cons, List.mem_cons] at hb ⊢
      exact Or.inr hb

theorem Seg_append (h : Heap α) (xs ys : List (Nat × α)) (p q : Option Nat) :
    Seg h p (xs ++ ys) q ↔ ∃ m, Seg h p xs m ∧ Seg h m ys q := by
  induction xs generalizing p with
  | nil => simp
  | cons n rest ih =>
    obtain ⟨a, x⟩ := n
    simp only [List.cons_append, Seg_cons, ih]
    constructor
    · rintro ⟨hp, nx, hr, m, h1, h2⟩
      exact ⟨m, ⟨hp, nx, hr, h1⟩, h2⟩
    · rintro ⟨m, ⟨hp, nx, hr, h1⟩, h2⟩
      exact ⟨hp, nx, hr, m, h1, h2⟩

theorem Seg_addr_lt (h : Heap α) (nodes : List (Nat × α)) (p q : Option Nat)
    (hs : Seg h p nodes q) : ∀ a, a ∈ addrs nodes → a < h.size := by
  induction nodes generalizing p with
  | nil => intro a ha; simp [addrs] at ha
  | cons n rest ih =>
    obtain ⟨b, x⟩ := n
    obtain ⟨_, nx, hr, hrest⟩ := hs
    intro a ha
    simp only [addrs, List.map_cons, List.mem_cons] at ha
    rcases ha with rfl | ha
    · exact Heap.lt_size_of_read h _ _ hr
    · exact ih nx hrest a ha

/-- The chain from a pointer is unique. -/
theorem Chain_unique (h : Heap α) (p : Option Nat) (n1 n2 : List (Nat × α))
    (h1 : Chain h p n1) (h2 : Chain h p n2) : n1 = n2 := by
  induction n1 generalizing p n2 with
  | nil =>
    cases n2 with
    | nil => rfl
    | cons m rest =>
      obtain ⟨a, x⟩ := m
      have hp : p = none := h1
      have := h2.1
      rw [hp] at this; cases this
  | cons m rest ih =>
    obtain ⟨a, x⟩ := m
    obtain ⟨hp, nx, hr, hrest⟩ := h1
    cases n2 with
    | nil =>
      have hp2 : p = none := h2
      rw [hp] at hp2; cases hp2
    | cons m2 rest2 =>
      obtain ⟨a2, x2⟩ := m2
      obtain ⟨hp2, nx2, hr2, hrest2⟩ := h2
      rw [hp] at hp2
      cases hp2
      rw [hr] at hr2
      cases hr2
      rw [ih nx rest2 hrest hrest2]

/-- A chain that ends in `nullptr` visits no node twice. -/
theorem Chain_nodup (h : Heap α) (p : Option Nat) (nodes : List (Nat × α))
    (hc : Chain h p nodes) : (addrs nodes).Nodup := by
  induction nodes generalizing p with
  | nil => simp [addrs]
  | cons m rest ih =>
    obtain ⟨a, x⟩ := m
    obtain ⟨hp, nx, hr, hrest⟩ := hc
    have hrest' : Chain h nx rest := hrest
    simp only [addrs, List.map_cons, List.nodup_cons]
    refine ⟨?_, ih nx hrest'⟩
    intro hmem
    obtain ⟨⟨a', y⟩, hmem', ha'⟩ := List.mem_map.mp hmem
    simp only at ha'
    subst ha'
    obtain ⟨r1, r2, hsplit⟩ := List.append_of_mem hmem'
    have hsp : Seg h nx (r1 ++ (a', y) :: r2) none := by rw [← hsplit]; exact hrest
    obtain ⟨m, _, hm2⟩ := (Seg_append h r1 ((a', y) :: r2) nx none).mp hsp
    obtain ⟨hm, nx2, hr2, hrest2⟩ := hm2
    rw [hr] at hr2
    cases hr2
    have heq := Chain_unique h nx rest r2 hrest' hrest2
    have hlen := congrArg List.length hsplit
    rw [heq] at hlen
    simp at hlen
    omega

end ChainLemmas

/-! ## Iterating a chain -/

section IterationLemmas

open SingleLinkedList

variable {α : Type}

@[simp] theorem NodePtr.ofNext_some (a : Nat) : NodePtr.ofNext (some a) = NodePtr.node a := rfl

@[simp] theorem NodePtr.ofNext_none : NodePtr.ofNext none = NodePtr.null := rfl

theorem listIt_eq_node_null (l : SingleLinkedList) (a : Nat) :
    (listIt l : InputIt α BasicIterator).eq ⟨NodePtr.node a⟩ ⟨NodePtr.null⟩ = false := by
  simp [listIt]

theorem listIt_eq_null_null (l : SingleLinkedList) :
    (listIt l : InputIt α BasicIterator).eq ⟨NodePtr.null⟩ ⟨NodePtr.null⟩ = true := by
  simp [listIt]

theorem listIt_deref_node (h : Heap α) (l : SingleLinkedList) (a : Nat) (n : Node α)
    (hr : h.read a = some n) : (listIt l).deref h ⟨NodePtr.node a⟩ = some n.value := by
  simp [listIt, deref, hr]

theorem listIt_incr_node (h : Heap α) (l : SingleLinkedList) (a : Nat) (n : Node α)
    (hr : h.read a = some n) :
    (listIt l).incr h ⟨NodePtr.node a⟩ = some ⟨NodePtr.ofNext n.next_node⟩ := by
  simp [listIt, incr, next_node, hr]

theorem collect_listIt_of_Chain (h : Heap α) (l : SingleLinkedList) (nodes : List (Nat × α))
    (p : Option Nat) (fuel : Nat) (hc : Chain h p nodes) (hf : nodes.length ≤ fuel) :
    collect (listIt l) fuel h ⟨NodePtr.ofNext p⟩ ⟨NodePtr.null⟩ = Outcome.ok (values nodes) := by
  induction nodes generalizing p fuel with
  | nil =>
    have hp : p = none := hc
    subst hp
    unfold collect
    simp [listIt, values]
  | cons m rest ih =>
    obtain ⟨a, x⟩ := m
    obtain ⟨hp, nx, hr, hrest⟩ := hc
    subst hp
    cases fuel with
    | zero => simp at hf
    | succ fuel =>
      have hf' : rest.length ≤ fuel := by simpa using hf
      rw [collect]
      simp only [NodePtr.ofNext_some, listIt_eq_node_null, listIt_deref_node h l a _ hr,
        listIt_incr_node h l a _ hr, ih nx fuel hrest hf']
      simp [values]

theorem toList_of_Holds (h : Heap α) (l : SingleLinkedList) (nodes : List (Nat × α))
    (fuel : Nat) (hh : Holds h l nodes) (hf : nodes.length ≤ fuel) :
    toList fuel h l = Outcome.ok (values nodes) :=
  collect_listIt_of_Chain h l nodes l.head_next_node fuel hh.1 hf

end IterationLemmas

/-! ## Frame lemmas -/

section FrameLemmas

open SingleLinkedList

variable {α : Type}

theorem Seg_alloc (h : Heap α) (n : Node α) (nodes : List (Nat × α)) (p q : Option Nat)
    (hs : Seg h p nodes q) : Seg (h.alloc n).2 p nodes q := by
  refine Seg_congr h _ nodes p q hs fun a ha => ?_
  have hlt := Seg_addr_lt h nodes p q hs a ha
  rw [Heap.read_alloc, if_neg (Nat.ne_of_lt hlt)]

theorem Seg_write (h : Heap α) (a : Nat) (n : Node α) (nodes : List (Nat × α))
    (p q : Option Nat) (hs : Seg h p nodes q) (ha : a ∉ addrs nodes) (hlt : a < h.size) :
    Seg (h.write a n) p nodes q := by
  refine Seg_congr h _ nodes p q hs fun b hb => ?_
  rw [Heap.read_write h a n b hlt, if_neg]
  rintro rfl
  exact ha hb

theorem Seg_free (h : Heap α) (a : Nat) (nodes : List (Nat × α))
    (p q : Option Nat) (hs : Seg h p nodes q) (ha : a ∉ addrs nodes) :
    Seg (h.free a) p nodes q := by
  refine Seg_congr h _ nodes p q hs fun b hb => ?_
  rw [Heap.read_free, if_neg]
  rintro rfl
  exact ha hb

/-- Splitting a chain at its `j`-th node. -/
theorem Chain_split (h : Heap α) (p : Option Nat) (nodes : List (Nat × α)) (j : Nat)
    (b : Nat) (x : α) (hc : Chain h p nodes) (hj : nodes[j]? = some (b, x)) :
    ∃ nx, h.read b = some ⟨x, nx⟩ ∧ Seg h p (nodes.take j) (some b) ∧
      Chain h nx (nodes.drop (j + 1)) ∧ b ∉ addrs (nodes.take j) ∧
      b ∉ addrs (nodes.drop (j + 1)) ∧
      nodes = nodes.take j ++ (b, x) :: nodes.drop (j + 1) := by
  have hjlt : j < nodes.length := by
    by_contra hge
    rw [List.getElem?_eq_none (Nat.le_of_not_lt hge)] at hj
    cases hj
  have hsplit : nodes = nodes.take j ++ (b, x) :: nodes.drop (j + 1) := by
    have hget : nodes[j] = (b, x) := by
      have := List.getElem?_eq_getElem hjlt
      rw [hj] at this
      exact (Option.some.inj this).symm
    conv_lhs => rw [← List.take_append_drop j nodes]
    rw [List.drop_eq_getElem_cons hjlt, hget]
  have hc2 : Seg h p (nodes.take j ++ (b, x) :: nodes.drop (j + 1)) none := by
    rw [← hsplit]; exact hc
  obtain ⟨m, hpre, hm, nx, hr, hpost⟩ := (Seg_append h _ _ p none).mp hc2
  subst hm
  have hnd := Chain_nodup h p nodes hc
  rw [hsplit] at hnd
  simp only [addrs, List.map_append, List.map_cons] at hnd
  have hnd2 := List.nodup_append.mp hnd
  refine ⟨nx, hr, hpre, hpost, ?_, ?_, hsplit⟩
  · intro hmem
    exact hnd2.2.2 hmem (List.mem_cons_self _ _)
  · exact (List.nodup_cons.mp hnd2.2.1).1

end FrameLemmas

/-! ## PushFront and PopFront -/

section FrontOperations

open SingleLinkedList

variable {α : Type}

theorem Holds_PushFront (h : Heap α) (l : SingleLinkedList) (nodes : List (Nat × α)) (v : α)
    (hh : Holds h l nodes) :
    Holds (PushFront h l v).1 (PushFront h l v).2 ((h.size, v) :: nodes) := by
  obtain ⟨hc, hs⟩ := hh
  refine ⟨⟨rfl, l.head_next_node, ?_, Seg_alloc h _ nodes _ _ hc⟩, ?_⟩
  · simp [PushFront, Heap.read_alloc]
  · simp [PushFront, hs]

/-- C6: on a list holding the sequence `S`, `PushFront(v)` leaves the list
holding `v` followed by `S` (the old nodes, in their order, behind one new
first node), and `GetSize()` grows by exactly one. -/
theorem PushFront_spec (h : Heap α) (l : SingleLinkedList) (nodes : List (Nat × α)) (v : α)
    (hh : Holds h l nodes) :
    Holds (PushFront h l v).1 (PushFront h l v).2 ((h.size, v) :: nodes) ∧
      (PushFront h l v).2.GetSize = l.GetSize + 1 ∧
      ∀ fuel, nodes.length + 1 ≤ fuel →
        toList fuel (PushFront h l v).1 (PushFront h l v).2 = Outcome.ok (v :: values nodes) := by
  have hp := Holds_PushFront h l nodes v hh
  refine ⟨hp, rfl, fun fuel hf => ?_⟩
  rw [toList_of_Holds _ _ _ fuel hp (by simpa using hf)]
  rfl

theorem PushFront_spec_witness :
    Holds (⟨[some ⟨2, none⟩]⟩ : Heap Nat) ⟨some 0, 1⟩ [(0, 2)] ∧
      toList 2 (PushFront (⟨[some ⟨2, none⟩]⟩ : Heap Nat) ⟨some 0, 1⟩ 7).1
        (PushFront (⟨[some ⟨2, none⟩]⟩ : Heap Nat) ⟨some 0, 1⟩ 7).2 = Outcome.ok [7, 2] :=
  ⟨⟨⟨rfl, none, rfl, rfl⟩, rfl⟩,
    (PushFront_spec (⟨[some ⟨2, none⟩]⟩ : Heap Nat) ⟨some 0, 1⟩ [(0, 2)] 7
      ⟨⟨rfl, none, rfl, rfl⟩, rfl⟩).2.2 2 (by decide)⟩

theorem Holds_size_zero (h : Heap α) (l : SingleLinkedList) (nodes : List (Nat × α))
    (hh : Holds h l nodes) : l.size_ = 0 ↔ nodes = [] := by
  rw [hh.2]; exact List.length_eq_zero

theorem Holds_PopFront (h : Heap α) (l : SingleLinkedList) (a : Nat) (x : α)
    (rest : List (Nat × α)) (hh : Holds h l ((a, x) :: rest)) :
    ∃ nx, h.read a = some ⟨x, nx⟩ ∧
      PopFront h l = some (h.free a, ⟨nx, rest.length⟩) ∧
      Holds (h.free a) ⟨nx, rest.length⟩ rest := by
  obtain ⟨hc, hs⟩ := hh
  have hnd := Chain_nodup h _ _ hc
  obtain ⟨hp, nx, hr, hrest⟩ := hc
  refine ⟨nx, hr, ?_, ⟨Seg_free h a rest nx none hrest ?_, rfl⟩⟩
  · have hne : l.size_ ≠ 0 := by rw [hs]; simp
    simp [PopFront, hne, hp, hr, size_t_dec, hs]
  · simp only [addrs, List.map_cons, List.nodup_cons] at hnd
    exact hnd.1

/-- C7: `PopFront()` on a list whose `size_` is zero returns with nothing
changed; on a list holding `e1, e2..en` it removes exactly the first node,
leaves `e2..en` in order and lowers `GetSize()` by exactly one. -/
theorem PopFront_spec (h : Heap α) (l : SingleLinkedList) :
    (l.GetSize = 0 → PopFront h l = some (h, l)) ∧
      ∀ (a : Nat) (x : α) (rest : List (Nat × α)), Holds h l ((a, x) :: rest) →
        ∃ h1 l1, PopFront h l = some (h1, l1) ∧ Holds h1 l1 rest ∧
          l1.GetSize + 1 = l.GetSize ∧
          ∀ fuel, rest.length ≤ fuel → toList fuel h1 l1 = Outcome.ok (values rest) := by
  refine ⟨fun h0 => ?_, fun a x rest hh => ?_⟩
  · have : l.size_ = 0 := h0
    simp [PopFront, this]
  · obtain ⟨nx, _, hpop, hh1⟩ := Holds_PopFront h l a x rest hh
    refine ⟨_, _, hpop, hh1, ?_, fun fuel hf => toList_of_Holds _ _ _ fuel hh1 hf⟩
    simp [GetSize, hh.2]

theorem PopFront_spec_witness :
    PopFront (Heap.empty : Heap Nat) SingleLinkedList.empty
        = some (Heap.empty, SingleLinkedList.empty) ∧
      ∃ h1 l1, PopFront (⟨[some ⟨5, some 1⟩, some ⟨7, none⟩]⟩ : Heap Nat) ⟨some 0, 2⟩
          = some (h1, l1) ∧ Holds h1 l1 [(1, 7)] ∧ l1.GetSize + 1 = 2 ∧
          ∀ fuel, 1 ≤ fuel → toList fuel h1 l1 = Outcome.ok [7] :=
  ⟨(PopFront_spec (Heap.empty : Heap Nat) SingleLinkedList.empty).1 rfl,
    (PopFront_spec (⟨[some ⟨5, some 1⟩, some ⟨7, none⟩]⟩ : Heap Nat) ⟨some 0, 2⟩).2 0 5 [(1, 7)]
      ⟨⟨rfl, some 1, rfl, rfl, none, rfl, rfl⟩, rfl⟩⟩

end FrontOperations

/-! ## InsertAfter -/

section InsertAfterLemmas

open SingleLinkedList

variable {α : Type}

theorem posAt_succ_of_get (nodes : List (Nat × α)) (j b : Nat) (x : α)
    (hj : nodes[j]? = some (b, x)) : posAt nodes (j + 1) = ⟨NodePtr.node b⟩ := by
  simp [posAt, hj]

theorem get_of_lt (nodes : List (Nat × α)) (j : Nat) (hj : j < nodes.length) :
    ∃ b x, nodes[j]? = some (b, x) :=
  ⟨nodes[j].1, nodes[j].2, List.getElem?_eq_getElem hj⟩

theorem not_mem_addrs_of_size_le (h : Heap α) (nodes : List (Nat × α)) (p q : Option Nat)
    (hs : Seg h p nodes q) (a : Nat) (ha : h.size ≤ a) : a ∉ addrs nodes := fun hm =>
  absurd (Seg_addr_lt h nodes p q hs a hm) (Nat.not_lt.mpr ha)

theorem InsertAfter_head (h : Heap α) (l : SingleLinkedList) (v : α) :
    InsertAfter h l ⟨NodePtr.head⟩ v
        = some (⟨NodePtr.node h.size⟩, (PushFront h l v).1, (PushFront h l v).2) := by
  simp only [InsertAfter, PushFront, Heap.alloc, next_node, set_next_node, Heap.write,
    Heap.size]
  simp

theorem InsertAfter_node (h : Heap α) (l : SingleLinkedList) (nodes : List (Nat × α))
    (j b : Nat) (x v : α) (hh : Holds h l nodes) (hj : nodes[j]? = some (b, x)) :
    ∃ h1, InsertAfter h l ⟨NodePtr.node b⟩ v
        = some (⟨NodePtr.node h.size⟩, h1, ⟨l.head_next_node, l.size_ + 1⟩) ∧
      Holds h1 ⟨l.head_next_node, l.size_ + 1⟩
        (nodes.take (j + 1) ++ (h.size, v) :: nodes.drop (j + 1)) ∧
      h1.size = h.size + 1 ∧
      ∀ c, c ∉ addrs nodes → c < h.size → h1.read c = h.read c := by
  obtain ⟨hc, hs⟩ := hh
  obtain ⟨nx, hr, hpre, hpost, hb1, hb2, hsplit⟩ := Chain_split h _ nodes j b x hc hj
  have hblt : b < h.size := Heap.lt_size_of_read h b _ hr
  have hbne : b ≠ h.size := Nat.ne_of_lt hblt
  -- the free store after the three updates
  let h1 : Heap α := ((h.alloc ⟨v, none⟩).2.write h.size ⟨v, nx⟩).write b ⟨x, some h.size⟩
  have hrd : ∀ c, h1.read c = if c = b then some ⟨x, some h.size⟩
      else if c = h.size then some ⟨v, nx⟩ else h.read c := by
    intro c
    simp only [h1]
    rw [Heap.read_write _ _ _ _ (by simp; omega), Heap.read_write _ _ _ _ (by simp),
      Heap.read_alloc]
    by_cases hcb : c = b
    · simp [hcb]
    · by_cases hca : c = h.size
      · simp [hcb, hca]
      · simp [hcb, hca]
  refine ⟨h1, ?_, ⟨?_, ?_⟩, ?_, ?_⟩
  · have e1 : (h.alloc ⟨v, none⟩).2.read b = some ⟨x, nx⟩ := by
      rw [Heap.read_alloc, if_neg hbne, hr]
    have e2 : ((h.alloc ⟨v, none⟩).2.write h.size ⟨v, nx⟩).read b = some ⟨x, nx⟩ := by
      rw [Heap.read_write _ _ _ _ (by simp), if_neg hbne, e1]
    simp only [InsertAfter, next_node, set_next_node, Heap.fst_alloc, e1, e2, Option.map_some']
  · have hlen : nodes.take (j + 1) = nodes.take j ++ [(b, x)] := by
      rw [List.take_succ, hj]; rfl
    show Seg h1 _ _ none
    rw [hlen, List.append_assoc, Seg_append]
    refine ⟨some b, Seg_congr h h1 _ _ _ hpre fun c hcm => ?_, ?_⟩
    · have hclt := Seg_addr_lt h _ _ _ hpre c hcm
      rw [hrd c, if_neg (fun (e : c = b) => hb1 (e ▸ hcm)), if_neg (Nat.ne_of_lt hclt)]
    · refine ⟨rfl, some h.size, ?_, rfl, nx, ?_, Seg_congr h h1 _ _ _ hpost fun c hcm => ?_⟩
      · rw [hrd b, if_pos rfl]
      · rw [hrd h.size, if_neg (Ne.symm hbne), if_pos rfl]
      · have hclt := Seg_addr_lt h _ _ _ hpost c hcm
        rw [hrd c, if_neg (fun (e : c = b) => hb2 (e ▸ hcm)), if_neg (Nat.ne_of_lt hclt)]
  · have hjlt : j < nodes.length := by
      by_contra hge
      rw [List.getElem?_eq_none (Nat.le_of_not_lt hge)] at hj
      cases hj
    simp [hs]
    omega
  · simp [h1]
  · intro c hcn hclt
    rw [hrd c, if_neg, if_neg (Nat.ne_of_lt hclt)]
    rintro rfl
    apply hcn
    rw [hsplit]
    simp [addrs]

end InsertAfterLemmas

section InsertAfterSpec

open SingleLinkedList

variable {α : Type}

theorem PushFront_frame (h : Heap α) (l : SingleLinkedList) (v : α) :
    (PushFront h l v).1.size = h.size + 1 ∧
      ∀ c, c < h.size → (PushFront h l v).1.read c = h.read c := by
  refine ⟨by simp [PushFront], fun c hc => ?_⟩
  simp only [PushFront]
  rw [Heap.read_alloc, if_neg (Nat.ne_of_lt hc)]

/-- `InsertAfter` at position `k` of a list owning `nodes`: the result, the
chain afterwards, and the cells it leaves alone. -/
theorem InsertAfter_at (h : Heap α) (l : SingleLinkedList) (nodes : List (Nat × α))
    (k : Nat) (v : α) (hh : Holds h l nodes) (hk : k ≤ nodes.length) :
    ∃ h1 l1, InsertAfter h l (posAt nodes k) v = some (⟨NodePtr.node h.size⟩, h1, l1) ∧
      Holds h1 l1 (nodes.take k ++ (h.size, v) :: nodes.drop k) ∧
      l1.size_ = l.size_ + 1 ∧ h1.size = h.size + 1 ∧
      (∀ c, c ∉ addrs nodes → c < h.size → h1.read c = h.read c) ∧
      (k = 0 → (h1, l1) = PushFront h l v) := by
  cases k with
  | zero =>
    refine ⟨(PushFront h l v).1, (PushFront h l v).2, InsertAfter_head h l v, ?_, rfl,
      (PushFront_frame h l v).1, fun c _ hc => (PushFront_frame h l v).2 c hc, fun _ => rfl⟩
    simpa using Holds_PushFront h l nodes v hh
  | succ j =>
    obtain ⟨b, x, hj⟩ := get_of_lt nodes j hk
    obtain ⟨h1, hins, hh1, hsz, hfr⟩ := InsertAfter_node h l nodes j b x v hh hj
    refine ⟨h1, _, ?_, hh1, rfl, hsz, hfr, fun h0 => by cases h0⟩
    rw [posAt_succ_of_get nodes j b x hj]
    exact hins

/-- C3: on a list holding `e1..en`, `InsertAfter` at position `k` (`k = 0` is
`before_begin()`, `1 ≤ k ≤ n` the `k`-th element) with value `v` leaves the
list holding `e1..ek, v, e(k+1)..en`, raises `GetSize()` by exactly one, and
returns an iterator to the new node: it dereferences to `v` and is the
iterator at position `k + 1`. With `before_begin()` the resulting state is
the one `PushFront(v)` produces. -/
theorem InsertAfter_spec (h : Heap α) (l : SingleLinkedList) (nodes : List (Nat × α))
    (k : Nat) (v : α) (hh : Holds h l nodes) (hk : k ≤ nodes.length) :
    ∃ it h1 l1, InsertAfter h l (posAt nodes k) v = some (it, h1, l1) ∧
      Holds h1 l1 (nodes.take k ++ (h.size, v) :: nodes.drop k) ∧
      l1.GetSize = l.GetSize + 1 ∧
      deref h1 it = some v ∧
      it = posAt (nodes.take k ++ (h.size, v) :: nodes.drop k) (k + 1) ∧
      (∀ fuel, nodes.length + 1 ≤ fuel →
        toList fuel h1 l1
          = Outcome.ok ((values nodes).take k ++ v :: (values nodes).drop k)) ∧
      (k = 0 → (h1, l1) = PushFront h l v) := by
  obtain ⟨h1, l1, hins, hh1, hsz, _, _, hpf⟩ := InsertAfter_at h l nodes k v hh hk
  have hget : (nodes.take k ++ (h.size, v) :: nodes.drop k)[k]? = some (h.size, v) := by
    rw [List.getElem?_append_right (by simp [hk])]
    simp [hk]
  obtain ⟨nx, hr, _⟩ := Chain_split h1 _ _ k h.size v hh1.1 hget
  refine ⟨_, h1, l1, hins, hh1, hsz, ?_, ?_, fun fuel hf => ?_, hpf⟩
  · simp [deref, hr]
  · rw [posAt_succ_of_get _ k h.size v hget]
  · rw [toList_of_Holds h1 l1 _ fuel hh1 (by simp [hk]; omega)]
    simp [values, List.map_take, List.map_drop]

theorem InsertAfter_spec_witness :
    ∃ it h1 l1, InsertAfter (Heap.empty : Heap Nat) SingleLinkedList.empty
          (posAt ([] : List (Nat × Nat)) 0) 5 = some (it, h1, l1) ∧
        toList 1 h1 l1 = Outcome.ok [5] ∧ deref h1 it = some 5 ∧
        ∃ it2 h2 l2, InsertAfter h1 l1 it 7 = some (it2, h2, l2) ∧
          toList 2 h2 l2 = Outcome.ok [5, 7] := by
  obtain ⟨it, h1, l1, hins, hh1, _, hd, hit, htl, _⟩ :=
    InsertAfter_spec (Heap.empty : Heap Nat) SingleLinkedList.empty [] 0 5 ⟨rfl, rfl⟩
      (Nat.le_refl 0)
  refine ⟨it, h1, l1, hins, htl 1 (Nat.le_refl 1), hd, ?_⟩
  obtain ⟨it2, h2, l2, hins2, _, _, _, _, htl2, _⟩ :=
    InsertAfter_spec h1 l1 _ 1 7 hh1 (Nat.le_refl 1)
  rw [← hit] at hins2
  exact ⟨it2, h2, l2, hins2, htl2 2 (Nat.le_refl 2)⟩

end InsertAfterSpec

/-! ## EraseAfter -/

section EraseAfterLemmas

open SingleLinkedList

variable {α : Type}

theorem Chain_head (h : Heap α) (p : Option Nat) (nodes : List (Nat × α))
    (hc : Chain h p nodes) : p = nodes[0]?.map Prod.fst := by
  cases nodes with
  | nil => exact hc
  | cons m rest => obtain ⟨a, x⟩ := m; simpa using hc.1

theorem size_t_dec_succ (n : Nat) : size_t_dec (n + 1) = n := by
  simp [size_t_dec]

/-- `EraseAfter` at a position that has no following node. -/
theorem EraseAfter_last (h : Heap α) (l : SingleLinkedList) (nodes : List (Nat × α))
    (hh : Holds h l nodes) :
    EraseAfter h l (posAt nodes nodes.length) = some (l.cend, h, l) := by
  obtain ⟨hc, _⟩ := hh
  cases hn : nodes.length with
  | zero =>
    have hnil : nodes = [] := List.length_eq_zero.mp hn
    subst hnil
    have hp : l.head_next_node = none := hc
    simp [posAt, EraseAfter, next_node, hp, cend]
  | succ j =>
    obtain ⟨b, x, hj⟩ := get_of_lt nodes j (by omega)
    obtain ⟨nx, hr, _, hpost, _⟩ := Chain_split h _ nodes j b x hc hj
    have hd : nodes.drop (j + 1) = [] := List.drop_eq_nil_of_le (by omega)
    rw [hd] at hpost
    have hnx : nx = none := hpost
    subst hnx
    rw [posAt_succ_of_get nodes j b x hj]
    simp [EraseAfter, next_node, hr, cend]

/-- `EraseAfter` at position `k` of a list owning `nodes`, when a node
follows: the result, the chain afterwards, and the cells it leaves alone. -/
theorem EraseAfter_at (h : Heap α) (l : SingleLinkedList) (nodes : List (Nat × α))
    (k : Nat) (hh : Holds h l nodes) (hk : k < nodes.length) :
    ∃ h1 l1, EraseAfter h l (posAt nodes k) = some (posAt nodes (k + 2), h1, l1) ∧
      Holds h1 l1 (nodes.eraseIdx k) ∧
      l1.size_ + 1 = l.size_ ∧ h1.size = h.size ∧
      (∀ c, c ∉ addrs nodes → h1.read c = h.read c) ∧
      (∀ c, c ∈ addrs (nodes.eraseIdx k) → (h1.read c).map Node.value
        = (h.read c).map Node.value) := by
  obtain ⟨hc, hs⟩ := hh
  obtain ⟨d, y, hd⟩ := get_of_lt nodes k hk
  obtain ⟨nxd, hrd, hpre, hpost, hd1, hd2, hsplit⟩ := Chain_split h _ nodes k d y hc hd
  have hnxd : nxd = nodes[k + 1]?.map Prod.fst := by
    rw [Chain_head h nxd _ hpost]; simp
  have herase : nodes.eraseIdx k = nodes.take k ++ nodes.drop (k + 1) :=
    List.eraseIdx_eq_take_drop_succ nodes k
  have hsz : size_t_dec l.size_ + 1 = l.size_ := by
    rw [hs]
    obtain ⟨m, hm⟩ : ∃ m, nodes.length = m + 1 := ⟨nodes.length - 1, by omega⟩
    rw [hm, size_t_dec_succ]
  have hdmem : d ∈ addrs nodes := by
    rw [hsplit]; simp [addrs]
  cases k with
  | zero =>
    have hp : l.head_next_node = some d := hpre
    refine ⟨h.free d, ⟨nxd, size_t_dec l.size_⟩, ?_, ⟨?_, ?_⟩, hsz, by simp, ?_, ?_⟩
    · simp [posAt, EraseAfter, next_node, set_next_node, hp, hrd, hnxd]
    · rw [herase]
      exact Seg_free h d _ _ _ hpost hd2
    · show size_t_dec l.size_ = (nodes.eraseIdx 0).length
      rw [List.length_eraseIdx, if_pos hk]
      omega
    · intro c hcn
      rw [Heap.read_free, if_neg]
      rintro rfl
      exact hcn hdmem
    · intro c hcm
      rw [Heap.read_free, if_neg]
      rintro rfl
      rw [herase] at hcm
      simp only [addrs, List.map_append, List.mem_append] at hcm
      rcases hcm with hcm | hcm
      · exact hd1 hcm
      · exact hd2 hcm
  | succ j =>
    obtain ⟨b, x, hj⟩ := get_of_lt nodes j (by omega)
    obtain ⟨nxb, hrb, hpreb, hpostb, hb1, hb2, _⟩ := Chain_split h _ nodes j b x hc hj
    have hdrop : nodes.drop (j + 1) = (d, y) :: nodes.drop (j + 1 + 1) :=
      by rw [List.drop_eq_getElem_cons hk]
         have := List.getElem?_eq_getElem hk
         rw [hd] at this
         rw [← Option.some.inj this]
    have hnxb : nxb = some d := by
      rw [hdrop] at hpostb
      exact hpostb.1
    subst hnxb
    have htake : nodes.take (j + 1) = nodes.take j ++ [(b, x)] := by
      rw [List.take_succ, hj]; rfl
    have hbd : b ≠ d := by
      rintro rfl
      apply hd1
      rw [htake]; simp [addrs]
    have hblt : b < h.size := Heap.lt_size_of_read h b _ hrb
    let h1 : Heap α := (h.write b ⟨x, nxd⟩).free d
    have hrd1 : ∀ c, h1.read c = if c = d then none
        else if c = b then some ⟨x, nxd⟩ else h.read c := by
      intro c
      simp only [h1]
      rw [Heap.read_free, Heap.read_write _ _ _ _ hblt]
    have hbmem : b ∈ addrs nodes := by
      have : (b, x) ∈ nodes := List.getElem?_mem hj
      exact List.mem_map.mpr ⟨(b, x), this, rfl⟩
    refine ⟨h1, ⟨l.head_next_node, size_t_dec l.size_⟩, ?_, ⟨?_, ?_⟩, hsz, by simp [h1], ?_, ?_⟩
    · rw [posAt_succ_of_get nodes j b x hj]
      have e1 : (h.write b ⟨x, nxd⟩).read d = some ⟨y, nxd⟩ := by
        rw [Heap.read_write _ _ _ _ hblt, if_neg (Ne.symm hbd), hrd]
      have e2 : h1.read b = some ⟨x, nxd⟩ := by
        rw [hrd1 b, if_neg hbd, if_pos rfl]
      simp only [h1] at e2
      simp only [EraseAfter, next_node, set_next_node, hrb, hrd, Option.map_some', e1, e2]
      simp only [posAt, hnxd, h1]
    · show Seg h1 _ _ none
      rw [herase, htake, List.append_assoc, Seg_append]
      refine ⟨some b, Seg_congr h h1 _ _ _ hpreb fun c hcm => ?_, rfl, nxd, ?_,
        Seg_congr h h1 _ _ _ hpost fun c hcm => ?_⟩
      · rw [hrd1 c, if_neg, if_neg (fun (e : c = b) => hb1 (e ▸ hcm))]
        rintro rfl
        apply hd1
        rw [htake]
        simp only [addrs, List.map_append, List.mem_append]
        exact Or.inl hcm
      · rw [hrd1 b, if_neg hbd, if_pos rfl]
      · rw [hrd1 c, if_neg (fun (e : c = d) => hd2 (e ▸ hcm)), if_neg]
        rintro rfl
        apply hb2
        rw [hdrop]
        simp only [addrs, List.map_cons, List.mem_cons]
        exact Or.inr hcm
    · show size_t_dec l.size_ = (nodes.eraseIdx (j + 1)).length
      rw [List.length_eraseIdx, if_pos hk]
      omega
    · intro c hcn
      rw [hrd1 c, if_neg (fun (e : c = d) => hcn (e ▸ hdmem)),
        if_neg (fun (e : c = b) => hcn (e ▸ hbmem))]
    · intro c hcm
      have hcd : c ≠ d := by
        rintro rfl
        rw [herase] at hcm
        simp only [addrs, List.map_append, List.mem_append] at hcm
        rcases hcm with hcm | hcm
        · exact hd1 hcm
        · exact hd2 hcm
      rw [hrd1 c, if_neg hcd]
      by_cases hcb : c = b
      · subst hcb; simp [hrb]
      · simp [hcb]

end EraseAfterLemmas

section EraseAfterSpec

open SingleLinkedList

variable {α : Type}

/-- C4: on a list holding `e1..en`, `EraseAfter` at position `k` (`k = 0` is
`before_begin()`, otherwise the `k`-th element) with `k < n` removes exactly
`e(k+1)`: the list then holds `e1..ek, e(k+2)..en`, `GetSize()` drops by
exactly one, and the returned iterator is the one at position `k + 1` of the
new list; it dereferences to `e(k+2)`, or is the end iterator when
`k + 1 = n`. -/
theorem EraseAfter_spec (h : Heap α) (l : SingleLinkedList) (nodes : List (Nat × α))
    (k : Nat) (hh : Holds h l nodes) (hk : k < nodes.length) :
    ∃ it h1 l1, EraseAfter h l (posAt nodes k) = some (it, h1, l1) ∧
      Holds h1 l1 (nodes.take k ++ nodes.drop (k + 1)) ∧
      l1.GetSize + 1 = l.GetSize ∧
      it = posAt (nodes.take k ++ nodes.drop (k + 1)) (k + 1) ∧
      (∀ x, (values nodes)[k + 1]? = some x → deref h1 it = some x) ∧
      (k + 1 = nodes.length → it = l1.cend) ∧
      ∀ fuel, nodes.length ≤ fuel + 1 →
        toList fuel h1 l1
          = Outcome.ok ((values nodes).take k ++ (values nodes).drop (k + 1)) := by
  obtain ⟨h1, l1, her, hh1, hsz, _, _, _⟩ := EraseAfter_at h l nodes k hh hk
  rw [List.eraseIdx_eq_take_drop_succ] at hh1
  have hidx : (nodes.take k ++ nodes.drop (k + 1))[k]? = nodes[k + 1]? := by
    rw [List.getElem?_append_right (by simp)]
    simp [Nat.min_eq_left (Nat.le_of_lt hk)]
  have hpos : posAt nodes (k + 2) = posAt (nodes.take k ++ nodes.drop (k + 1)) (k + 1) := by
    simp only [posAt, hidx]
  refine ⟨_, h1, l1, her, hh1, hsz, hpos, fun x hx => ?_, fun hn => ?_, fun fuel hf => ?_⟩
  · simp only [values, List.getElem?_map] at hx
    cases hn : nodes[k + 1]? with
    | none => rw [hn] at hx; cases hx
    | some m =>
      obtain ⟨a, y⟩ := m
      rw [hn] at hx
      have hxy : y = x := Option.some.inj hx
      subst hxy
      obtain ⟨nx, hr, _⟩ := Chain_split h1 _ _ k a y hh1.1 (hidx.trans hn)
      simp [posAt, hn, deref, hr]
  · have : nodes[k + 1]? = none := List.getElem?_eq_none (by omega)
    simp [posAt, this, cend]
  · rw [toList_of_Holds h1 l1 _ fuel hh1 (by simp; omega)]
    simp [values, List.map_take, List.map_drop]

theorem EraseAfter_spec_witness :
    ∃ it h1 l1, EraseAfter (⟨[some ⟨5, some 1⟩, some ⟨7, none⟩]⟩ : Heap Nat) ⟨some 0, 2⟩
          (posAt [(0, 5), (1, 7)] 0) = some (it, h1, l1) ∧
        toList 1 h1 l1 = Outcome.ok [7] ∧ deref h1 it = some 7 ∧ l1.GetSize + 1 = 2 := by
  obtain ⟨it, h1, l1, her, _, hsz, _, hd, _, htl⟩ :=
    EraseAfter_spec (⟨[some ⟨5, some 1⟩, some ⟨7, none⟩]⟩ : Heap Nat) ⟨some 0, 2⟩
      [(0, 5), (1, 7)] 0 ⟨⟨rfl, some 1, rfl, rfl, none, rfl, rfl⟩, rfl⟩ (by decide)
  exact ⟨it, h1, l1, her, htl 1 (by decide), hd 7 rfl, hsz⟩

/-- C5: on a list owning `nodes`, `EraseAfter` at the position with no
following node (the last element, or `before_begin()` of an empty list)
returns the end iterator and changes neither the free store nor the list
object, so the element sequence and `GetSize()` are as before. -/
theorem EraseAfter_last_spec (h : Heap α) (l : SingleLinkedList) (nodes : List (Nat × α))
    (hh : Holds h l nodes) :
    ∃ it h1 l1, EraseAfter h l (posAt nodes nodes.length) = some (it, h1, l1) ∧
      it = l.cend ∧ h1 = h ∧ l1 = l ∧ Holds h1 l1 nodes ∧ l1.GetSize = l.GetSize ∧
      ∀ fuel, nodes.length ≤ fuel → toList fuel h1 l1 = Outcome.ok (values nodes) :=
  ⟨l.cend, h, l, EraseAfter_last h l nodes hh, rfl, rfl, rfl, hh, rfl,
    fun fuel hf => toList_of_Holds h l nodes fuel hh hf⟩

theorem EraseAfter_last_spec_witness :
    (∃ it h1 l1, EraseAfter (⟨[some ⟨5, some 1⟩, some ⟨7, none⟩]⟩ : Heap Nat) ⟨some 0, 2⟩
          ⟨NodePtr.node 1⟩ = some (it, h1, l1) ∧ it = ⟨NodePtr.null⟩ ∧
        h1 = ⟨[some ⟨5, some 1⟩, some ⟨7, none⟩]⟩ ∧ l1 = ⟨some 0, 2⟩) ∧
      ∃ it h1 l1, EraseAfter (Heap.empty : Heap Nat) SingleLinkedList.empty
          ⟨NodePtr.head⟩ = some (it, h1, l1) ∧ it = ⟨NodePtr.null⟩ ∧
        h1 = Heap.empty ∧ l1 = SingleLinkedList.empty := by
  obtain ⟨it, h1, l1, her, hit, hh1, hl1, _⟩ :=
    EraseAfter_last_spec (⟨[some ⟨5, some 1⟩, some ⟨7, none⟩]⟩ : Heap Nat) ⟨some 0, 2⟩
      [(0, 5), (1, 7)] ⟨⟨rfl, some 1, rfl, rfl, none, rfl, rfl⟩, rfl⟩
  obtain ⟨it', h1', l1', her', hit', hh1', hl1', _⟩ :=
    EraseAfter_last_spec (Heap.empty : Heap Nat) SingleLinkedList.empty [] ⟨rfl, rfl⟩
  exact ⟨⟨it, h1, l1, her, hit, hh1, hl1⟩, ⟨it', h1', l1', her', hit', hh1', hl1'⟩⟩

end EraseAfterSpec

/-! ## Clear and the destructor -/

section ClearLemmas

open SingleLinkedList

variable {α : Type}

theorem ClearLoop_of_Chain (h : Heap α) (p : Option Nat) (nodes : List (Nat × α))
    (fuel : Nat) (hc : Chain h p nodes) (hf : nodes.length ≤ fuel) :
    ∃ h1, ClearLoop fuel h p = Outcome.ok h1 ∧ h1.size = h.size ∧
      ∀ c, h1.read c = if c ∈ addrs nodes then none else h.read c := by
  induction nodes generalizing h p fuel with
  | nil =>
    have hp : p = none := hc
    subst hp
    exact ⟨h, by cases fuel <;> rfl, rfl, fun c => by simp [addrs]⟩
  | cons m rest ih =>
    obtain ⟨a, x⟩ := m
    have hnd := Chain_nodup h p _ hc
    obtain ⟨hp, nx, hr, hrest⟩ := hc
    subst hp
    cases fuel with
    | zero => simp at hf
    | succ fuel =>
      have ha : a ∉ addrs rest := by
        simp only [addrs, List.map_cons, List.nodup_cons] at hnd
        exact hnd.1
      obtain ⟨h1, hcl, hsz, hrd⟩ :=
        ih (h.free a) nx fuel (Seg_free h a rest nx none hrest ha) (by simpa using hf)
      refine ⟨h1, ?_, by simpa using hsz, fun c => ?_⟩
      · simp only [ClearLoop, hr]
        exact hcl
      · rw [hrd c, Heap.read_free]
        simp only [addrs, List.map_cons, List.mem_cons]
        by_cases hca : c = a
        · simp [hca]
        · by_cases hcr : c ∈ List.map Prod.fst rest
          · simp [addrs, hcr]
          · simp [addrs, hca, hcr]

/-- `Clear()` on a list that owns `nodes` frees exactly these nodes. -/
theorem Clear_of_Holds (h : Heap α) (l : SingleLinkedList) (nodes : List (Nat × α))
    (fuel : Nat) (hh : Holds h l nodes) (hf : nodes.length ≤ fuel) :
    ∃ h1, Clear fuel h l = Outcome.ok (h1, SingleLinkedList.empty) ∧ h1.size = h.size ∧
      ∀ c, h1.read c = if c ∈ addrs nodes then none else h.read c := by
  by_cases h0 : l.size_ = 0
  · have hnil := (Holds_size_zero h l nodes hh).mp h0
    subst hnil
    have hp : l.head_next_node = none := hh.1
    refine ⟨h, ?_, rfl, fun c => by simp [addrs]⟩
    have hl : l = SingleLinkedList.empty := by
      cases l; simp only [SingleLinkedList.empty] at *; simp_all
    subst hl
    simp [Clear, SingleLinkedList.empty]
  · obtain ⟨h1, hcl, hsz, hrd⟩ := ClearLoop_of_Chain h _ nodes fuel hh.1 hf
    exact ⟨h1, by simp [Clear, h0, hcl, SingleLinkedList.empty], hsz, hrd⟩

theorem destroy_of_Holds (h : Heap α) (l : SingleLinkedList) (nodes : List (Nat × α))
    (fuel : Nat) (hh : Holds h l nodes) (hf : nodes.length ≤ fuel) :
    ∃ h1, destroy fuel h l = Outcome.ok h1 ∧ h1.size = h.size ∧
      ∀ c, h1.read c = if c ∈ addrs nodes then none else h.read c := by
  obtain ⟨h1, hcl, hsz, hrd⟩ := Clear_of_Holds h l nodes fuel hh hf
  exact ⟨h1, by simp [destroy, hcl], hsz, hrd⟩

end ClearLemmas

/-! ## The loop of Copy -/

section CopyLoopLemmas

open SingleLinkedList

variable {α : Type}

theorem Heap.Extends_refl (h : Heap α) : Heap.Extends h h := ⟨Nat.le_refl _, fun _ _ => rfl⟩

theorem Heap.Extends_trans_of_ge (h0 h1 h2 : Heap α) (h01 : Heap.Extends h0 h1)
    (hsz : h1.size ≤ h2.size) (hrd : ∀ c, c < h0.size → h2.read c = h1.read c) :
    Heap.Extends h0 h2 :=
  ⟨Nat.le_trans h01.1 hsz, fun c hc => (hrd c hc).trans (h01.2 c hc)⟩

/-- Linking a freshly allocated node behind the last node of a chain. -/
theorem Chain_snoc (h : Heap α) (p : Option Nat) (pre : List (Nat × α)) (r : Nat) (x v : α)
    (hc : Chain h p (pre ++ [(r, x)])) :
    h.read r = some ⟨x, none⟩ ∧ r < h.size ∧
      Chain ((h.alloc ⟨v, none⟩).2.write r ⟨x, some h.size⟩) p
        ((pre ++ [(r, x)]) ++ [(h.size, v)]) := by
  have hnd := Chain_nodup h p _ hc
  obtain ⟨m, hpre, hm, nx, hr, hnx⟩ := (Seg_append h pre [(r, x)] p none).mp hc
  have hnx' : nx = none := hnx
  subst hnx' hm
  have hrlt : r < h.size := Heap.lt_size_of_read h r _ hr
  have hrpre : r ∉ addrs pre := by
    simp only [addrs, List.map_append, List.map_cons, List.map_nil] at hnd
    have := (List.nodup_append.mp hnd).2.2
    intro hmem
    exact this hmem (List.mem_singleton_self r)
  have hrd : ∀ c, ((h.alloc ⟨v, none⟩).2.write r ⟨x, some h.size⟩).read c
      = if c = r then some ⟨x, some h.size⟩ else if c = h.size then some ⟨v, none⟩
        else h.read c := by
    intro c
    rw [Heap.read_write _ _ _ _ (by simp; omega), Heap.read_alloc]
  refine ⟨hr, hrlt, ?_⟩
  show Seg _ p _ none
  rw [List.append_assoc, Seg_append]
  refine ⟨some r, Seg_congr h _ _ _ _ hpre fun c hcm => ?_, rfl, some h.size, ?_, rfl, none,
    ?_, rfl⟩
  · have hclt := Seg_addr_lt h _ _ _ hpre c hcm
    rw [hrd c, if_neg (fun (e : c = r) => hrpre (e ▸ hcm)), if_neg (Nat.ne_of_lt hclt)]
  · rw [hrd r, if_pos rfl]
  · rw [hrd h.size, if_neg (Nat.ne_of_gt hrlt), if_pos rfl]

theorem CopyLoop_steps {ι : Type} (I : InputIt α ι) (throws : Nat → α → Bool) (h0 : Heap α)
    (a0 : Nat) (last : ι) (S1 : List α) :
    ∀ (S2 : List α) (fuel : Nat) (hc : Heap α) (pre : List (Nat × α)) (runner : Nat) (xr : α)
      (k : Nat) (first : ι) (sz : Nat),
      Heap.Extends h0 hc →
      Chain hc (some a0) (pre ++ [(runner, xr)]) →
      (∀ a, a ∈ addrs (pre ++ [(runner, xr)]) → h0.size ≤ a) →
      Reads I (Heap.Extends h0) first (S1 ++ S2) last →
      (∀ i v, S1[i]? = some v → throws (k + i) v = false) →
      ∃ h1 pre1 runner1 xr1 first1,
        CopyLoop I throws (fuel + S1.length) hc ⟨some a0, sz⟩ runner k first last
          = CopyLoop I throws fuel h1 ⟨some a0, sz + S1.length⟩ runner1 (k + S1.length)
              first1 last ∧
        Heap.Extends h0 h1 ∧ h1.size = hc.size + S1.length ∧
        Chain h1 (some a0) (pre1 ++ [(runner1, xr1)]) ∧
        (∀ a, a ∈ addrs (pre1 ++ [(runner1, xr1)]) → h0.size ≤ a) ∧
        values (pre1 ++ [(runner1, xr1)]) = values (pre ++ [(runner, xr)]) ++ S1 ∧
        Reads I (Heap.Extends h0) first1 S2 last := by
  induction S1 with
  | nil =>
    intro S2 fuel hc pre runner xr k first sz hext hch hge hR _
    exact ⟨hc, pre, runner, xr, first, rfl, hext, rfl, hch, hge, by simp, hR⟩
  | cons v vs ih =>
    intro S2 fuel hc pre runner xr k first sz hext hch hge hR hthr
    obtain ⟨hne, next, hstep, hRest⟩ := hR
    obtain ⟨hr, hrlt, hch2⟩ := Chain_snoc hc (some a0) pre runner xr v hch
    have hrge : h0.size ≤ runner := hge runner (by simp [addrs])
    -- the free store after this iteration
    have hext2 : Heap.Extends h0 ((hc.alloc ⟨v, none⟩).2.write runner ⟨xr, some hc.size⟩) := by
      refine Heap.Extends_trans_of_ge h0 hc _ hext (by simp) fun c hclt => ?_
      rw [Heap.read_write _ _ _ _ (by simp; omega), Heap.read_alloc,
        if_neg (by omega), if_neg (by have := hext.1; omega)]
    have hge2 : ∀ a, a ∈ addrs ((pre ++ [(runner, xr)]) ++ [(hc.size, v)]) → h0.size ≤ a := by
      intro a ha
      simp only [addrs, List.map_append, List.mem_append] at ha
      rcases ha with ha | ha
      · exact hge a (by simpa [addrs] using ha)
      · simp at ha; subst ha; exact hext.1
    obtain ⟨h1, pre1, runner1, xr1, first1, heq, hext1, hsz1, hch1, hge1, hval1, hR1⟩ :=
      ih S2 fuel _ (pre ++ [(runner, xr)]) hc.size v (k + 1) next (sz + 1) hext2 hch2 hge2 hRest
        (fun i w hi => by
          have := hthr (i + 1) w (by simpa using hi)
          rw [← this]; congr 1; omega)
    refine ⟨h1, pre1, runner1, xr1, first1, ?_, hext1, ?_, hch1, hge1, ?_, hR1⟩
    · have hd := (hstep hc hext).1
      have hi := (hstep _ hext2).2
      have ht : throws k v = false := by
        have := hthr 0 v (by simp)
        simpa using this
      have hra : (hc.alloc ⟨v, none⟩).2.read runner = some ⟨xr, none⟩ := by
        rw [Heap.read_alloc, if_neg (Nat.ne_of_lt hrlt), hr]
      have e : fuel + (v :: vs).length = (fuel + vs.length) + 1 := by simp; omega
      rw [e, CopyLoop]
      simp only [hne, hd, ht, Heap.fst_alloc, hra, hi]
      simp only [Bool.false_eq_true, if_false]
      rw [heq]
      have e1 : sz + 1 + vs.length = sz + (v :: vs).length := by simp; omega
      have e2 : k + 1 + vs.length = k + (v :: vs).length := by simp; omega
      rw [e1, e2]
    · rw [hsz1, Heap.size_write, Heap.size_alloc]; simp; omega
    · rw [hval1]; simp [values]

end CopyLoopLemmas

/-! ## Copy -/

section CopyLemmas

open SingleLinkedList

variable {α : Type}

theorem Copy_nil {ι : Type} (I : InputIt α ι) (throws : Nat → α → Bool) (fuel : Nat)
    (h : Heap α) (l : SingleLinkedList) (first last : ι)
    (hR : Reads I (Heap.Extends h) first [] last) :
    Copy I throws fuel h l first last = Outcome.ok (h, l) := by
  have he : I.eq first last = true := hR
  simp [Copy, he]

theorem Extends_alloc (h : Heap α) (n : Node α) : Heap.Extends h (h.alloc n).2 :=
  ⟨by simp, fun c hc => by rw [Heap.read_alloc, if_neg (Nat.ne_of_lt hc)]⟩

theorem Chain_alloc_single (h : Heap α) (v : α) :
    Chain (h.alloc ⟨v, none⟩).2 (some h.size) ([] ++ [(h.size, v)]) :=
  ⟨rfl, none, by rw [Heap.read_alloc, if_pos rfl], rfl⟩

theorem length_of_values_eq (nodes : List (Nat × α)) (vs : List α) (hv : values nodes = vs) :
    nodes.length = vs.length := by
  rw [← hv]; simp [values]

/-- `Copy` over a non-empty range none of whose elements throws: the
object takes over a chain of fresh nodes holding the values of the range, and
the nodes it owned before are freed. -/
theorem Copy_ok {ι : Type} (I : InputIt α ι) (throws : Nat → α → Bool) (fuel : Nat)
    (h : Heap α) (l : SingleLinkedList) (old : List (Nat × α)) (first last : ι)
    (v : α) (vs : List α)
    (hR : Reads I (Heap.Extends h) first (v :: vs) last) (hold : Holds h l old)
    (hthr : ∀ i w, (v :: vs)[i]? = some w → throws i w = false)
    (hf : vs.length ≤ fuel) (hfo : old.length ≤ fuel) :
    ∃ h1 new, Copy I throws fuel h l first last
          = Outcome.ok (h1, ⟨some h.size, vs.length + 1⟩) ∧
      Holds h1 ⟨some h.size, vs.length + 1⟩ new ∧ values new = v :: vs ∧
      (∀ a, a ∈ addrs new → h.size ≤ a) ∧ h1.size = h.size + (vs.length + 1) ∧
      ∀ c, c < h.size → h1.read c = if c ∈ addrs old then none else h.read c := by
  obtain ⟨hne, next, hstep, hRest⟩ := hR
  have hd := (hstep h (Heap.Extends_refl h)).1
  have hi := (hstep _ (Extends_alloc h ⟨v, none⟩)).2
  have ht : throws 0 v = false := hthr 0 v (by simp)
  have hRest' : Reads I (Heap.Extends h) next (vs ++ []) last := by simpa using hRest
  obtain ⟨h1, pre1, runner1, xr1, first1, heq, hext1, hsz1, hch1, hge1, hval1, hR1⟩ :=
    CopyLoop_steps I throws h h.size last vs [] (fuel - vs.length) _ [] h.size v 1 next 1
      (Extends_alloc h ⟨v, none⟩) (Chain_alloc_single h v)
      (fun a ha => by simp [addrs] at ha; omega) hRest'
      (fun i w hiw => by
        have := hthr (i + 1) w (by simpa using hiw)
        rw [← this]; congr 1; omega)
  have hfuel : fuel - vs.length + vs.length = fuel := Nat.sub_add_cancel hf
  rw [hfuel] at heq
  have hend : I.eq first1 last = true := hR1
  have hloop : CopyLoop I throws (fuel - vs.length) h1 ⟨some h.size, 1 + vs.length⟩ runner1
      (1 + vs.length) first1 last = Outcome.ok (h1, ⟨some h.size, 1 + vs.length⟩) := by
    unfold CopyLoop; simp [hend]
  -- the old nodes are still a chain of `l`, which `tmp` takes over and frees
  have hold1 : Holds h1 l old := by
    refine ⟨Seg_congr h h1 _ _ _ hold.1 fun c hc => ?_, hold.2⟩
    exact hext1.2 c (Seg_addr_lt h _ _ _ hold.1 c hc)
  obtain ⟨h2, hdes, hsz2, hrd2⟩ := destroy_of_Holds h1 l old fuel hold1 hfo
  have hlen : (pre1 ++ [(runner1, xr1)]).length = vs.length + 1 := by
    rw [length_of_values_eq _ _ hval1]; simp [values]
  refine ⟨h2, pre1 ++ [(runner1, xr1)], ?_, ⟨?_, ?_⟩, ?_, hge1, ?_, ?_⟩
  · simp only [Copy, hne, hd, ht, Heap.fst_alloc, hi, SingleLinkedList.empty]
    simp only [Bool.false_eq_true, if_false, Nat.zero_add, heq, hloop, SingleLinkedList.swap]
    have hl : (⟨l.head_next_node, l.size_⟩ : SingleLinkedList) = l := rfl
    rw [hl, hdes]
    simp [Nat.add_comm]
  · refine Seg_congr h1 h2 _ _ _ hch1 fun c hc => ?_
    rw [hrd2 c, if_neg]
    intro hco
    have h1' := hge1 c hc
    have h2' := Seg_addr_lt h _ _ _ hold.1 c hco
    omega
  · exact hlen.symm
  · rw [hval1]; simp [values]
  · rw [hsz2, hsz1]; simp; omega
  · intro c hc
    rw [hrd2 c, hext1.2 c hc]

/-- `Copy` over a range in which the copy of the element at position
`S1.length` is the first to throw: the exception leaves the object as it was,
and the free store has every cell that existed before unchanged. -/
theorem Copy_throw {ι : Type} (I : InputIt α ι) (throws : Nat → α → Bool) (fuel : Nat)
    (h : Heap α) (l : SingleLinkedList) (first last : ι)
    (S1 : List α) (v : α) (S3 : List α)
    (hR : Reads I (Heap.Extends h) first (S1 ++ v :: S3) last)
    (hthr : ∀ i w, S1[i]? = some w → throws i w = false)
    (hv : throws S1.length v = true) (hf : S1.length ≤ fuel) :
    ∃ h1, Copy I throws fuel h l first last = Outcome.threw h1 ∧ Heap.Extends h h1 := by
  cases S1 with
  | nil =>
    obtain ⟨hne, next, hstep, _⟩ := hR
    have hd := (hstep h (Heap.Extends_refl h)).1
    have ht : throws 0 v = true := hv
    refine ⟨h, ?_, Heap.Extends_refl h⟩
    simp [Copy, hne, hd, ht, destroy, Clear, SingleLinkedList.empty]
  | cons w ws =>
    obtain ⟨hne, next, hstep, hRest⟩ := hR
    have hd := (hstep h (Heap.Extends_refl h)).1
    have hi := (hstep _ (Extends_alloc h ⟨w, none⟩)).2
    have ht : throws 0 w = false := hthr 0 w (by simp)
    have hRest' : Reads I (Heap.Extends h) next (ws ++ v :: S3) last := hRest
    obtain ⟨h1, pre1, runner1, xr1, first1, heq, hext1, hsz1, hch1, hge1, hval1, hR1⟩ :=
      CopyLoop_steps I throws h h.size last ws (v :: S3) (fuel - ws.length) _ [] h.size w 1
        next 1 (Extends_alloc h ⟨w, none⟩) (Chain_alloc_single h w)
        (fun a ha => by simp [addrs] at ha; omega) hRest'
        (fun i u hiu => by
          have := hthr (i + 1) u (by simpa using hiu)
          rw [← this]; congr 1; omega)
    have hf' : ws.length + 1 ≤ fuel := by simpa using hf
    have hfuel : fuel - ws.length + ws.length = fuel := Nat.sub_add_cancel (by omega)
    rw [hfuel] at heq
    obtain ⟨hne1, next1, hstep1, _⟩ := hR1
    have hd1 := (hstep1 h1 hext1).1
    have hv1 : throws (1 + ws.length) v = true := by
      rw [← hv]; congr 1; simp; omega
    obtain ⟨f, hfeq⟩ : ∃ f, fuel - ws.length = f + 1 := ⟨fuel - ws.length - 1, by omega⟩
    have hloop : CopyLoop I throws (fuel - ws.length) h1 ⟨some h.size, 1 + ws.length⟩ runner1
        (1 + ws.length) first1 last = Outcome.threw (h1, ⟨some h.size, 1 + ws.length⟩) := by
      rw [hfeq, CopyLoop]; simp [hne1, hd1, hv1]
    have hlen : (pre1 ++ [(runner1, xr1)]).length = 1 + ws.length := by
      rw [length_of_values_eq _ _ hval1]; simp [values]; omega
    obtain ⟨h2, hdes, hsz2, hrd2⟩ := destroy_of_Holds h1 ⟨some h.size, 1 + ws.length⟩ _ fuel
      ⟨hch1, hlen.symm⟩ (by rw [hlen]; omega)
    refine ⟨h2, ?_, ⟨by rw [hsz2]; exact hext1.1, fun c hc => ?_⟩⟩
    · simp only [Copy, hne, hd, ht, Heap.fst_alloc, hi, SingleLinkedList.empty]
      simp only [Bool.false_eq_true, if_false, Nat.zero_add, heq, hloop, hdes]
    · rw [hrd2 c, if_neg, hext1.2 c hc]
      intro hco
      have := hge1 c hco
      omega

end CopyLemmas

/-! ## The constructors -/

section Constructors

open SingleLinkedList

variable {α : Type}

theorem Reads_arrayIt (P : Heap α → Prop) (S : List α) (n : Nat) :
    ∀ i, i + n = S.length → Reads (arrayIt S) P i (S.drop i) S.length := by
  induction n with
  | zero =>
    intro i hi
    have : i = S.length := by omega
    subst this
    simp [Reads, arrayIt]
  | succ n ih =>
    intro i hi
    have hlt : i < S.length := by omega
    rw [List.drop_eq_getElem_cons hlt]
    refine ⟨by simp [arrayIt, Nat.ne_of_lt hlt], i + 1, fun h _ => ?_, ih (i + 1) (by omega)⟩
    simp [arrayIt, List.getElem?_eq_getElem hlt]

theorem Reads_listIt (h : Heap α) (other : SingleLinkedList) (nodes : List (Nat × α))
    (p : Option Nat) (hc : Chain h p nodes) :
    Reads (listIt other) (Heap.Extends h) ⟨NodePtr.ofNext p⟩ (values nodes) ⟨NodePtr.null⟩ := by
  induction nodes generalizing p with
  | nil =>
    have hp : p = none := hc
    subst hp
    exact listIt_eq_null_null other
  | cons m rest ih =>
    obtain ⟨a, x⟩ := m
    obtain ⟨hp, nx, hr, hrest⟩ := hc
    subst hp
    refine ⟨listIt_eq_node_null other a, ⟨NodePtr.ofNext nx⟩, fun h1 hext => ?_, ih nx hrest⟩
    have hr1 : h1.read a = some ⟨x, nx⟩ := by
      rw [hext.2 a (Heap.lt_size_of_read h a _ hr), hr]
    exact ⟨listIt_deref_node h1 other a _ hr1, listIt_incr_node h1 other a _ hr1⟩

theorem Holds_empty (h : Heap α) : Holds h SingleLinkedList.empty [] := ⟨rfl, rfl⟩

theorem extends_of_reads (h h1 : Heap α) (hsz : h.size ≤ h1.size)
    (hrd : ∀ c, c < h.size → h1.read c = if c ∈ addrs ([] : List (Nat × α)) then none
      else h.read c) : Heap.Extends h h1 :=
  ⟨hsz, fun c hc => by rw [hrd c hc]; simp [addrs]⟩

/-- Construction from a sequence of values none of whose copies throws. -/
theorem ofInitializerList_ok (throws : Nat → α → Bool) (h : Heap α) (S : List α) (fuel : Nat)
    (hthr : ∀ i w, S[i]? = some w → throws i w = false) (hf : S.length ≤ fuel) :
    ∃ h1 l1 nodes, ofInitializerList throws fuel h S = Outcome.ok (h1, l1) ∧
      Holds h1 l1 nodes ∧ values nodes = S ∧ (∀ a, a ∈ addrs nodes → h.size ≤ a) ∧
      Heap.Extends h h1 ∧ (S = [] → h1 = h ∧ l1 = SingleLinkedList.empty) := by
  have hR := Reads_arrayIt (Heap.Extends h) S S.length 0 (by simp)
  rw [List.drop_zero] at hR
  cases S with
  | nil =>
    refine ⟨h, SingleLinkedList.empty, [], Copy_nil _ _ _ _ _ _ _ hR, Holds_empty h, rfl,
      fun a ha => by simp [addrs] at ha, Heap.Extends_refl h, fun _ => ⟨rfl, rfl⟩⟩
  | cons v vs =>
    obtain ⟨h1, new, hcopy, hh1, hval, hge, hsz, hrd⟩ :=
      Copy_ok (arrayIt (v :: vs)) throws fuel h SingleLinkedList.empty [] 0 (v :: vs).length
        v vs hR (Holds_empty h) hthr (by simp at hf; omega) (by simp)
    exact ⟨h1, _, new, hcopy, hh1, hval, hge,
      extends_of_reads h h1 (by rw [hsz]; omega) hrd, fun hnil => by cases hnil⟩

/-- C1: for every sequence `S`, the list constructed from `S` by the
initializer-list constructor iterates from `begin()` to `end()` as exactly
`S`, and `GetSize()` is the length of `S`; for the empty sequence the result
is the empty list with size `0`. -/
theorem ofInitializerList_spec (h : Heap α) (S : List α) (fuel : Nat) (hf : S.length ≤ fuel) :
    ∃ h1 l1, ofInitializerList noThrow fuel h S = Outcome.ok (h1, l1) ∧
      toList fuel h1 l1 = Outcome.ok S ∧ l1.GetSize = S.length ∧
      (S = [] → l1 = SingleLinkedList.empty ∧ l1.IsEmpty = true) := by
  obtain ⟨h1, l1, nodes, hctor, hh1, hval, _, _, hnil⟩ :=
    ofInitializerList_ok noThrow h S fuel (fun _ _ _ => rfl) hf
  have hlen := length_of_values_eq nodes S hval
  refine ⟨h1, l1, hctor, ?_, ?_, fun hS => ?_⟩
  · rw [toList_of_Holds h1 l1 nodes fuel hh1 (by omega), hval]
  · show l1.size_ = S.length
    rw [hh1.2, hlen]
  · rw [(hnil hS).2]
    exact ⟨rfl, rfl⟩

theorem ofInitializerList_spec_witness :
    ∃ h1 l1, ofInitializerList noThrow 3 (Heap.empty : Heap Nat) [4, 5, 6]
        = Outcome.ok (h1, l1) ∧
      toList 3 h1 l1 = Outcome.ok [4, 5, 6] ∧ l1.GetSize = 3 :=
  let ⟨h1, l1, hctor, htl, hsz, _⟩ :=
    ofInitializerList_spec (Heap.empty : Heap Nat) [4, 5, 6] 3 (by decide)
  ⟨h1, l1, hctor, htl, hsz⟩

end Constructors

/-! ## Copy construction and copy assignment -/

section CopyAssign

open SingleLinkedList

variable {α : Type}

theorem eq_empty_of_Holds_nil (h : Heap α) (l : SingleLinkedList) (hh : Holds h l []) :
    l = SingleLinkedList.empty := by
  obtain ⟨hc, hs⟩ := hh
  have hp : l.head_next_node = none := hc
  cases l
  simp only [SingleLinkedList.empty] at *
  simp_all

/-- Copy construction from a list owning `nodes` when no copy throws: the new
object owns fresh nodes with the same values, and every cell that existed
before is unchanged. -/
theorem copyConstruct_ok (throws : Nat → α → Bool) (h : Heap α) (other : SingleLinkedList)
    (nodes : List (Nat × α)) (fuel : Nat) (hh : Holds h other nodes)
    (hthr : ∀ i w, (values nodes)[i]? = some w → throws i w = false)
    (hf : nodes.length ≤ fuel) :
    ∃ h1 l1 new, copyConstruct throws fuel h other = Outcome.ok (h1, l1) ∧
      Holds h1 l1 new ∧ values new = values nodes ∧ (∀ a, a ∈ addrs new → h.size ≤ a) ∧
      Heap.Extends h h1 ∧ l1.size_ = other.size_ := by
  have hR := Reads_listIt h other nodes _ hh.1
  cases hv : values nodes with
  | nil =>
    rw [hv] at hR
    have hnil : nodes = [] := by
      have := length_of_values_eq nodes [] hv
      exact List.length_eq_zero.mp this
    subst hnil
    refine ⟨h, SingleLinkedList.empty, [], Copy_nil _ _ _ _ _ _ _ hR, Holds_empty h, rfl,
      fun a ha => by simp [addrs] at ha, Heap.Extends_refl h, ?_⟩
    rw [hh.2]; rfl
  | cons v vs =>
    rw [hv] at hR hthr
    have hlen := length_of_values_eq nodes _ hv
    obtain ⟨h1, new, hcopy, hh1, hval, hge, hsz, hrd⟩ :=
      Copy_ok (listIt other) throws fuel h SingleLinkedList.empty [] other.cbegin other.cend
        v vs hR (Holds_empty h) hthr (by simp at hlen; omega) (by simp)
    refine ⟨h1, _, new, hcopy, hh1, hval, hge,
      extends_of_reads h h1 (by rw [hsz]; omega) hrd, ?_⟩
    rw [hh.2, hlen]; rfl

/-- Copy construction when the copy of the element at position `i` throws and
no earlier one does. -/
theorem copyConstruct_throw (throws : Nat → α → Bool) (h : Heap α) (other : SingleLinkedList)
    (nodes : List (Nat × α)) (fuel : Nat) (i : Nat) (v : α) (hh : Holds h other nodes)
    (hi : (values nodes)[i]? = some v) (hv : throws i v = true)
    (hbefore : ∀ j w, j < i → (values nodes)[j]? = some w → throws j w = false)
    (hf : nodes.length ≤ fuel) :
    ∃ h1, copyConstruct throws fuel h other = Outcome.threw h1 ∧ Heap.Extends h h1 := by
  have hR := Reads_listIt h other nodes _ hh.1
  have hilt : i < (values nodes).length := by
    by_contra hge
    rw [List.getElem?_eq_none (Nat.le_of_not_lt hge)] at hi
    cases hi
  have hget : (values nodes)[i] = v := by
    have := List.getElem?_eq_getElem hilt
    rw [hi] at this
    exact (Option.some.inj this).symm
  have hsplit : values nodes = (values nodes).take i ++ v :: (values nodes).drop (i + 1) := by
    conv_lhs => rw [← List.take_append_drop i (values nodes)]
    rw [List.drop_eq_getElem_cons hilt, hget]
  rw [hsplit] at hR
  have hlt : ((values nodes).take i).length = i := by
    rw [List.length_take]; omega
  refine Copy_throw (listIt other) throws fuel h SingleLinkedList.empty other.cbegin other.cend
    ((values nodes).take i) v _ hR (fun j w hj => ?_) (by rw [hlt]; exact hv) ?_
  · have hjlt : j < i := by
      by_contra hge
      rw [List.getElem?_eq_none (by rw [hlt]; omega)] at hj
      cases hj
    refine hbefore j w hjlt ?_
    rw [List.getElem?_take_of_lt hjlt] at hj
    exact hj
  · rw [hlt]
    have := length_of_values_eq nodes _ rfl
    omega

end CopyAssign

section AssignSpec

open SingleLinkedList

variable {α : Type}

/-- Copy assignment between two distinct objects that own disjoint chains,
when no copy throws. -/
theorem assign_ok (throws : Nat → α → Bool) (w : World α) (this rhs : Nat)
    (A R : List (Nat × α)) (fuel : Nat) (hne : this ≠ rhs)
    (hA : Holds w.heap (w.objs this) A) (hR : Holds w.heap (w.objs rhs) R)
    (hdisj : ∀ a, a ∈ addrs A → a ∉ addrs R)
    (hthr : ∀ i v, (values R)[i]? = some v → throws i v = false)
    (hfA : A.length ≤ fuel) (hfR : R.length ≤ fuel) :
    ∃ w1 new, assign throws fuel w this rhs = Outcome.ok w1 ∧
      Holds w1.heap (w1.objs this) new ∧ values new = values R ∧
      (w1.objs this).size_ = (w.objs rhs).size_ ∧
      (∀ o, o ≠ this → w1.objs o = w.objs o) ∧
      Holds w1.heap (w1.objs rhs) R ∧
      (∀ a, a ∈ addrs new → w.heap.size ≤ a) ∧
      (∀ c, c ∉ addrs A → c < w.heap.size → w1.heap.read c = w.heap.read c) := by
  obtain ⟨h1, tmp, new, hcc, hnew, hval, hge, hext, hsz⟩ :=
    copyConstruct_ok throws w.heap (w.objs rhs) R fuel hR hthr hfR
  have hA1 : Holds h1 (w.objs this) A :=
    ⟨Seg_congr w.heap h1 _ _ _ hA.1 fun c hc =>
      hext.2 c (Seg_addr_lt w.heap _ _ _ hA.1 c hc), hA.2⟩
  obtain ⟨h2, hdes, hsz2, hrd2⟩ := destroy_of_Holds h1 (w.objs this) A fuel hA1 hfA
  have hobj_this : (if this = this then (⟨tmp.head_next_node, tmp.size_⟩ : SingleLinkedList)
      else w.objs this) = tmp := by simp
  have hobj_rhs : (if rhs = this then (⟨tmp.head_next_node, tmp.size_⟩ : SingleLinkedList)
      else w.objs rhs) = w.objs rhs := by simp [Ne.symm hne]
  refine ⟨⟨h2, fun o => if o = this then ⟨tmp.head_next_node, tmp.size_⟩ else w.objs o⟩, new,
    ?_, ?_, hval, ?_, fun o ho => by simp [ho], ?_, hge, fun c hcA hclt => ?_⟩
  · have hl : (⟨(w.objs this).head_next_node, (w.objs this).size_⟩ : SingleLinkedList)
        = w.objs this := rfl
    simp only [assign, hne, if_false, hcc, SingleLinkedList.swap, hl, hdes]
  · show Holds h2 (if this = this then _ else _) new
    rw [hobj_this]
    refine ⟨Seg_congr h1 h2 _ _ _ hnew.1 fun c hc => ?_, hnew.2⟩
    rw [hrd2 c, if_neg]
    intro hco
    have := hge c hc
    have := Seg_addr_lt w.heap _ _ _ hA.1 c hco
    omega
  · show (if this = this then (⟨tmp.head_next_node, tmp.size_⟩ : SingleLinkedList)
      else w.objs this).size_ = _
    rw [hobj_this, hsz]
  · show Holds h2 (if rhs = this then _ else _) R
    rw [hobj_rhs]
    refine ⟨Seg_congr w.heap h2 _ _ _ hR.1 fun c hc => ?_, hR.2⟩
    rw [hrd2 c, if_neg (fun hco => hdisj c hco hc)]
    exact hext.2 c (Seg_addr_lt w.heap _ _ _ hR.1 c hc)
  · show h2.read c = _
    rw [hrd2 c, if_neg hcA]
    exact hext.2 c hclt

/-- C8: after the copy assignment `A = rhs` between two distinct objects, `A`
holds exactly the element sequence of `rhs` with `GetSize()` equal to that of
`rhs` (also when `rhs` is empty and `A` was not), and `rhs` is unchanged:
same object, same nodes, same elements. On self-assignment the whole state is
unchanged. -/
theorem assign_spec (w : World α) (this rhs : Nat) (A : List (Nat × α)) (fuel : Nat)
    (hA : Holds w.heap (w.objs this) A) (hfA : A.length ≤ fuel) :
    (∀ R : List (Nat × α), this ≠ rhs → Holds w.heap (w.objs rhs) R →
        (∀ a, a ∈ addrs A → a ∉ addrs R) → R.length ≤ fuel →
        ∃ w1, assign noThrow fuel w this rhs = Outcome.ok w1 ∧
          toList fuel w1.heap (w1.objs this) = Outcome.ok (values R) ∧
          (w1.objs this).GetSize = (w.objs rhs).GetSize ∧
          w1.objs rhs = w.objs rhs ∧ Holds w1.heap (w1.objs rhs) R ∧
          toList fuel w1.heap (w1.objs rhs) = Outcome.ok (values R)) ∧
      ∃ w1, assign noThrow fuel w this this = Outcome.ok w1 ∧ w1.heap = w.heap ∧
        w1.objs = w.objs ∧ toList fuel w1.heap (w1.objs this) = Outcome.ok (values A) := by
  refine ⟨fun R hne hR hdisj hfR => ?_, w, by simp [assign], rfl, rfl,
    toList_of_Holds _ _ A fuel hA hfA⟩
  obtain ⟨w1, new, hasg, hnew, hval, hsz, hobjs, hR1, _, _⟩ :=
    assign_ok noThrow w this rhs A R fuel hne hA hR hdisj (fun _ _ _ => rfl) hfA hfR
  have hlen := length_of_values_eq new _ hval
  have hlenR := length_of_values_eq R _ rfl
  refine ⟨w1, hasg, ?_, hsz, hobjs rhs (Ne.symm hne), hR1,
    toList_of_Holds _ _ R fuel hR1 hfR⟩
  rw [toList_of_Holds _ _ new fuel hnew (by omega), hval]

theorem assign_spec_witness :
    (∃ w1, assign noThrow 2
          (⟨⟨[some ⟨1, some 1⟩, some ⟨2, none⟩]⟩,
            fun o => if o = 0 then ⟨some 0, 2⟩ else SingleLinkedList.empty⟩ : World Nat) 0 1
          = Outcome.ok w1 ∧
        toList 2 w1.heap (w1.objs 0) = Outcome.ok [] ∧ (w1.objs 0).GetSize = 0 ∧
        w1.objs 1 = SingleLinkedList.empty) ∧
      ∃ w1, assign noThrow 2
          (⟨⟨[some ⟨1, some 1⟩, some ⟨2, none⟩]⟩,
            fun o => if o = 0 then ⟨some 0, 2⟩ else SingleLinkedList.empty⟩ : World Nat) 0 0
          = Outcome.ok w1 ∧
        toList 2 w1.heap (w1.objs 0) = Outcome.ok [1, 2] := by
  have hspec := assign_spec
    (⟨⟨[some ⟨1, some 1⟩, some ⟨2, none⟩]⟩,
      fun o => if o = 0 then ⟨some 0, 2⟩ else SingleLinkedList.empty⟩ : World Nat) 0 1
    [(0, 1), (1, 2)] 2 ⟨⟨rfl, some 1, rfl, rfl, none, rfl, rfl⟩, rfl⟩ (by decide)
  obtain ⟨w1, hasg, htl, hsz, hrhs, _, _⟩ :=
    hspec.1 [] (by decide) ⟨rfl, rfl⟩ (fun _ _ hm => by simp [addrs] at hm) (by decide)
  obtain ⟨w2, hasg2, _, _, htl2⟩ := hspec.2
  exact ⟨⟨w1, hasg, htl, hsz, hrhs⟩, ⟨w2, hasg2, htl2⟩⟩

/-- C9: with an element copy that may throw, if the copy of some element of
`rhs` throws, the copy assignment `A = rhs` between two distinct objects ends
with the exception, and leaves every list object as it was and every node of
`A` in place: `A` owns the same nodes, iterates as the same sequence and has
the same size as before. -/
theorem assign_throw_spec (throws : Nat → α → Bool) (w : World α) (this rhs : Nat)
    (A R : List (Nat × α)) (fuel : Nat) (hne : this ≠ rhs)
    (hA : Holds w.heap (w.objs this) A) (hR : Holds w.heap (w.objs rhs) R)
    (hfA : A.length ≤ fuel) (hfR : R.length ≤ fuel)
    (hfail : ∃ i v, (values R)[i]? = some v ∧ throws i v = true) :
    ∃ w1, assign throws fuel w this rhs = Outcome.threw w1 ∧
      w1.objs = w.objs ∧ Holds w1.heap (w1.objs this) A ∧
      (w1.objs this).GetSize = (w.objs this).GetSize ∧
      toList fuel w1.heap (w1.objs this) = Outcome.ok (values A) := by
  classical
  -- the first position whose copy throws
  have hex : ∃ i, ∃ v, (values R)[i]? = some v ∧ throws i v = true := hfail
  obtain ⟨v, hi, hv⟩ := Nat.find_spec hex
  have hbefore : ∀ j u, j < Nat.find hex → (values R)[j]? = some u → throws j u = false := by
    intro j u hj hju
    have := Nat.find_min hex hj
    by_contra hne'
    exact this ⟨u, hju, by simpa using hne'⟩
  obtain ⟨h1, hcc, hext⟩ :=
    copyConstruct_throw throws w.heap (w.objs rhs) R fuel _ v hR hi hv hbefore hfR
  have hA1 : Holds h1 (w.objs this) A :=
    ⟨Seg_congr w.heap h1 _ _ _ hA.1 fun c hc =>
      hext.2 c (Seg_addr_lt w.heap _ _ _ hA.1 c hc), hA.2⟩
  refine ⟨⟨h1, w.objs⟩, ?_, rfl, hA1, rfl, toList_of_Holds _ _ A fuel hA1 hfA⟩
  simp only [assign, hne, if_false, hcc]

theorem assign_throw_spec_witness :
    ∃ w1, assign (fun k _ => decide (k = 1)) 3
        (⟨⟨[some ⟨1, some 1⟩, some ⟨2, none⟩, some ⟨7, some 3⟩, some ⟨8, some 4⟩,
            some ⟨9, none⟩]⟩,
          fun o => if o = 0 then ⟨some 0, 2⟩ else ⟨some 2, 3⟩⟩ : World Nat) 0 1
        = Outcome.threw w1 ∧
      (w1.objs 0).GetSize = 2 ∧ toList 3 w1.heap (w1.objs 0) = Outcome.ok [1, 2] :=
  let ⟨w1, hasg, _, _, hsz, htl⟩ := assign_throw_spec (fun k _ => decide (k = 1))
    (⟨⟨[some ⟨1, some 1⟩, some ⟨2, none⟩, some ⟨7, some 3⟩, some ⟨8, some 4⟩,
        some ⟨9, none⟩]⟩,
      fun o => if o = 0 then ⟨some 0, 2⟩ else ⟨some 2, 3⟩⟩ : World Nat) 0 1
    [(0, 1), (1, 2)] [(2, 7), (3, 8), (4, 9)] 3 (by decide)
    ⟨⟨rfl, some 1, rfl, rfl, none, rfl, rfl⟩, rfl⟩
    ⟨⟨rfl, some 3, rfl, rfl, some 4, rfl, rfl, none, rfl, rfl⟩, rfl⟩
    (by decide) (by decide) ⟨1, 8, rfl, rfl⟩
  ⟨w1, hasg, hsz, htl⟩

end AssignSpec

/-! ## Mutations of one list leave another list alone -/

section MutationFrame

open SingleLinkedList

variable {α : Type}

/-- What a valid mutating call does to the free store: the list owns a chain
again, made of old nodes of its own and of fresh nodes, and no cell outside
its old chain is touched. -/
theorem Mutation.apply_frame (fuel : Nat) (h : Heap α) (B : SingleLinkedList)
    (nodesB : List (Nat × α)) (m : Mutation α) (hB : Holds h B nodesB)
    (hv : m.ValidFor nodesB) (hf : nodesB.length ≤ fuel) :
    ∃ h2 B2 nodesB2, m.apply fuel h B = Outcome.ok (h2, B2) ∧ Holds h2 B2 nodesB2 ∧
      h.size ≤ h2.size ∧
      (∀ a, a ∈ addrs nodesB2 → a ∈ addrs nodesB ∨ h.size ≤ a) ∧
      (∀ c, c ∉ addrs nodesB → c < h.size → h2.read c = h.read c) := by
  cases m with
  | pushFront v =>
    refine ⟨_, _, _, rfl, Holds_PushFront h B nodesB v hB, ?_, fun a ha => ?_,
      fun c _ hc => (PushFront_frame h B v).2 c hc⟩
    · have := (PushFront_frame h B v).1
      show h.size ≤ (PushFront h B v).1.size
      omega
    · simp only [addrs, List.map_cons, List.mem_cons] at ha
      rcases ha with rfl | ha
      · exact Or.inr (Nat.le_refl _)
      · exact Or.inl ha
  | popFront =>
    cases nodesB with
    | nil =>
      have h0 : B.size_ = 0 := hB.2
      refine ⟨h, B, [], by simp [Mutation.apply, PopFront, h0], hB, Nat.le_refl _,
        fun a ha => Or.inl ha, fun _ _ _ => rfl⟩
    | cons n rest =>
      obtain ⟨a, x⟩ := n
      obtain ⟨nx, _, hpop, hh1⟩ := Holds_PopFront h B a x rest hB
      refine ⟨_, _, rest, by simp [Mutation.apply, hpop], hh1, by simp, fun c hc => ?_,
        fun c hcn _ => ?_⟩
      · exact Or.inl (by simp only [addrs, List.map_cons, List.mem_cons]; exact Or.inr hc)
      · rw [Heap.read_free, if_neg]
        rintro rfl
        exact hcn (by simp [addrs])
  | insertAfter pos v =>
    obtain ⟨k, hk, rfl⟩ := hv
    obtain ⟨h1, l1, hins, hh1, _, hsz, hfr, _⟩ := InsertAfter_at h B nodesB k v hB hk
    refine ⟨h1, l1, _, by simp [Mutation.apply, hins], hh1, by omega, fun a ha => ?_, hfr⟩
    simp only [addrs, List.map_append, List.map_cons, List.mem_append, List.mem_cons] at ha
    rcases ha with ha | rfl | ha
    · exact Or.inl (List.mem_map.mpr (by
        obtain ⟨n, hn, rfl⟩ := List.mem_map.mp ha
        exact ⟨n, List.mem_of_mem_take hn, rfl⟩))
    · exact Or.inr (Nat.le_refl _)
    · exact Or.inl (List.mem_map.mpr (by
        obtain ⟨n, hn, rfl⟩ := List.mem_map.mp ha
        exact ⟨n, List.mem_of_mem_drop hn, rfl⟩))
  | eraseAfter pos =>
    obtain ⟨k, hk, rfl⟩ := hv
    rcases Nat.lt_or_eq_of_le hk with hlt | heq
    · obtain ⟨h1, l1, her, hh1, _, hsz, hfr, _⟩ := EraseAfter_at h B nodesB k hB hlt
      refine ⟨h1, l1, _, by simp [Mutation.apply, her], hh1, by omega, fun a ha => ?_,
        fun c hcn _ => hfr c hcn⟩
      obtain ⟨n, hn, rfl⟩ := List.mem_map.mp ha
      exact Or.inl (List.mem_map.mpr ⟨n, List.mem_of_mem_eraseIdx hn, rfl⟩)
    · subst heq
      refine ⟨h, B, nodesB, by simp [Mutation.apply, EraseAfter_last h B nodesB hB], hB,
        Nat.le_refl _, fun a ha => Or.inl ha, fun _ _ _ => rfl⟩
  | clear =>
    obtain ⟨h1, hcl, hsz, hrd⟩ := Clear_of_Holds h B nodesB fuel hB hf
    refine ⟨h1, _, [], hcl, Holds_empty h1, by omega, fun a ha => by simp [addrs] at ha,
      fun c hcn _ => ?_⟩
    rw [hrd c, if_neg hcn]

/-- A run of valid mutating calls on `B` leaves a list `A` that shares no node
with `B` exactly as it was. -/
theorem Mutation.run_frame (fuel : Nat) (A : SingleLinkedList) (nodesA : List (Nat × α))
    (ms : List (Mutation α)) :
    ∀ (h : Heap α) (B : SingleLinkedList) (nodesB : List (Nat × α)),
      Holds h A nodesA → Holds h B nodesB → (∀ a, a ∈ addrs nodesA → a ∉ addrs nodesB) →
      Mutation.ValidRun fuel h B ms →
      ∃ h2 B2, Mutation.run fuel h B ms = Outcome.ok (h2, B2) ∧ Holds h2 A nodesA := by
  induction ms with
  | nil => intro h B nodesB hA _ _ _; exact ⟨h, B, rfl, hA⟩
  | cons m ms ih =>
    intro h B nodesB hA hB hdisj hvalid
    obtain ⟨⟨nodes, hB', hv, hf⟩, hnext⟩ := hvalid
    have hnodes : nodes = nodesB := Chain_unique h _ _ _ hB'.1 hB.1
    subst hnodes
    obtain ⟨h1, B1, nodesB1, happ, hB1, hsz, hsub, hfr⟩ :=
      Mutation.apply_frame fuel h B nodes m hB hv hf
    have hA1 : Holds h1 A nodesA :=
      ⟨Seg_congr h h1 _ _ _ hA.1 fun c hc =>
        hfr c (hdisj c hc) (Seg_addr_lt h _ _ _ hA.1 c hc), hA.2⟩
    have hdisj1 : ∀ a, a ∈ addrs nodesA → a ∉ addrs nodesB1 := by
      intro a ha hab
      rcases hsub a hab with hin | hge
      · exact hdisj a ha hin
      · have := Seg_addr_lt h _ _ _ hA.1 a ha
        omega
    obtain ⟨h2, B2, hrun, hA2⟩ := ih h1 B1 nodesB1 hA1 hB1 hdisj1 (hnext h1 B1 happ)
    exact ⟨h2, B2, by simp only [Mutation.run, happ]; exact hrun, hA2⟩

end MutationFrame

section CopyConstructSpec

open SingleLinkedList

variable {α : Type}

/-- C10: the list `B` copy-constructed from a list `A` holds the same
element sequence and has the same size as `A`, and `A` is left as it was by
the copy and by every run of mutating calls on `B` (`PushFront`, `PopFront`,
`InsertAfter`, `EraseAfter`, `Clear`) made at positions of `B`: `A` still owns
the same nodes, iterates as the same sequence and has the same size. -/
theorem copyConstruct_spec (h : Heap α) (A : SingleLinkedList) (nodesA : List (Nat × α))
    (fuel : Nat) (hA : Holds h A nodesA) (hf : nodesA.length ≤ fuel) :
    ∃ h1 B nodesB, copyConstruct noThrow fuel h A = Outcome.ok (h1, B) ∧
      Holds h1 B nodesB ∧ toList fuel h1 B = Outcome.ok (values nodesA) ∧
      B.GetSize = A.GetSize ∧ Holds h1 A nodesA ∧
      toList fuel h1 A = Outcome.ok (values nodesA) ∧
      ∀ (fuel2 : Nat) (ms : List (Mutation α)), nodesA.length ≤ fuel2 →
        Mutation.ValidRun fuel2 h1 B ms →
        ∃ h2 B2, Mutation.run fuel2 h1 B ms = Outcome.ok (h2, B2) ∧ Holds h2 A nodesA ∧
          toList fuel2 h2 A = Outcome.ok (values nodesA) ∧ A.GetSize = nodesA.length := by
  obtain ⟨h1, B, nodesB, hcc, hB, hval, hge, hext, hsz⟩ :=
    copyConstruct_ok noThrow h A nodesA fuel hA (fun _ _ _ => rfl) hf
  have hA1 : Holds h1 A nodesA :=
    ⟨Seg_congr h h1 _ _ _ hA.1 fun c hc => hext.2 c (Seg_addr_lt h _ _ _ hA.1 c hc), hA.2⟩
  have hlen : nodesB.length = nodesA.length := by
    rw [length_of_values_eq nodesB _ hval]; simp [values]
  have hdisj : ∀ a, a ∈ addrs nodesA → a ∉ addrs nodesB := by
    intro a ha hab
    have := hge a hab
    have := Seg_addr_lt h _ _ _ hA.1 a ha
    omega
  refine ⟨h1, B, nodesB, hcc, hB, ?_, hsz, hA1, toList_of_Holds _ _ _ fuel hA1 hf,
    fun fuel2 ms hf2 hvalid => ?_⟩
  · rw [toList_of_Holds _ _ _ fuel hB (by omega), hval]
  · obtain ⟨h2, B2, hrun, hA2⟩ :=
      Mutation.run_frame fuel2 A nodesA ms h1 B nodesB hA1 hB hdisj hvalid
    exact ⟨h2, B2, hrun, hA2, toList_of_Holds _ _ _ fuel2 hA2 hf2, hA2.2⟩

theorem copyConstruct_spec_witness :
    ∃ h1 B h2 B2,
      copyConstruct noThrow 4
          (⟨[some ⟨1, some 1⟩, some ⟨2, some 2⟩, some ⟨3, none⟩]⟩ : Heap Nat) ⟨some 0, 3⟩
        = Outcome.ok (h1, B) ∧
      Mutation.run 4 h1 B [Mutation.pushFront 0] = Outcome.ok (h2, B2) ∧
      toList 4 h2 ⟨some 0, 3⟩ = Outcome.ok [1, 2, 3] ∧
      toList 4 h2 B2 = Outcome.ok [0, 1, 2, 3] := by
  obtain ⟨h1, B, nodesB, hcc, hB, _, hsz, _, _, hmut⟩ :=
    copyConstruct_spec (⟨[some ⟨1, some 1⟩, some ⟨2, some 2⟩, some ⟨3, none⟩]⟩ : Heap Nat)
      ⟨some 0, 3⟩ [(0, 1), (1, 2), (2, 3)] 4
      ⟨⟨rfl, some 1, rfl, rfl, some 2, rfl, rfl, none, rfl, rfl⟩, rfl⟩ (by decide)
  have hlenB : nodesB.length ≤ 4 := by
    have h1' : B.size_ = nodesB.length := hB.2
    have h2' : B.size_ = 3 := hsz
    omega
  obtain ⟨h2, B2, hrun, _, htl, _⟩ := hmut 4 [Mutation.pushFront 0] (by decide)
    ⟨⟨nodesB, hB, trivial, hlenB⟩, fun _ _ _ => trivial⟩
  have hc : copyConstruct noThrow 4
      (⟨[some ⟨1, some 1⟩, some ⟨2, some 2⟩, some ⟨3, none⟩]⟩ : Heap Nat) ⟨some 0, 3⟩
      = Outcome.ok (⟨[some ⟨1, some 1⟩, some ⟨2, some 2⟩, some ⟨3, none⟩,
          some ⟨1, some 4⟩, some ⟨2, some 5⟩, some ⟨3, none⟩]⟩, ⟨some 3, 3⟩) := by decide
  rw [hc] at hcc
  injection hcc with hcc
  injection hcc with e1 e2
  subst e1 e2
  refine ⟨_, _, h2, B2, hc, hrun, htl, ?_⟩
  have hr : Mutation.run 4 (⟨[some ⟨1, some 1⟩, some ⟨2, some 2⟩, some ⟨3, none⟩,
      some ⟨1, some 4⟩, some ⟨2, some 5⟩, some ⟨3, none⟩]⟩ : Heap Nat) ⟨some 3, 3⟩
      [Mutation.pushFront 0]
      = Outcome.ok (⟨[some ⟨1, some 1⟩, some ⟨2, some 2⟩, some ⟨3, none⟩,
          some ⟨1, some 4⟩, some ⟨2, some 5⟩, some ⟨3, none⟩, some ⟨0, some 3⟩]⟩,
          ⟨some 6, 4⟩) := by decide
  rw [hr] at hrun
  injection hrun with hrun
  injection hrun with e1 e2
  subst e1 e2
  decide

end CopyConstructSpec

/-! ## Equality of lists -/

section EqualitySpec

open SingleLinkedList

/-- C2, at the lists `[1, 2]` and `[1, 2, 3]` built by the initializer-list
constructor: `operator==` returns `true` and `operator!=` returns `false`
although the lengths differ, because `std::equal` is given no end of the
second range; with the operands exchanged the second range is left before the
first is exhausted and the call dereferences the end iterator. -/
theorem operator_eq_ignores_length :
    ∃ h1 lhs h2 rhs,
      ofInitializerList noThrow 3 (Heap.empty : Heap Nat) [1, 2] = Outcome.ok (h1, lhs) ∧
      ofInitializerList noThrow 3 h1 [1, 2, 3] = Outcome.ok (h2, rhs) ∧
      toList 3 h2 lhs = Outcome.ok [1, 2] ∧ toList 3 h2 rhs = Outcome.ok [1, 2, 3] ∧
      lhs.GetSize = 2 ∧ rhs.GetSize = 3 ∧
      operator_eq 3 h2 lhs rhs = Outcome.ok true ∧
      operator_ne 3 h2 lhs rhs = Outcome.ok false ∧
      operator_eq 3 h2 rhs lhs = Outcome.undefined :=
  ⟨⟨[some ⟨1, some 1⟩, some ⟨2, none⟩]⟩, ⟨some 0, 2⟩,
    ⟨[some ⟨1, some 1⟩, some ⟨2, none⟩, some ⟨1, some 3⟩, some ⟨2, some 4⟩, some ⟨3, none⟩]⟩,
    ⟨some 2, 3⟩, by decide, by decide, by decide, by decide, rfl, rfl, by decide, by decide,
    by decide⟩

end EqualitySpec

/-! ## The public member Copy -/

section PublicCopy

open SingleLinkedList

variable {α : Type}

/-- `Copy` over a non-empty array range none of whose copies throws replaces
the state of the target: the list then holds the values of the range, and
the nodes it owned before are freed. -/
theorem Copy_array_nonempty (h : Heap α) (l : SingleLinkedList) (old : List (Nat × α))
    (v : α) (vs : List α) (fuel : Nat) (hold : Holds h l old)
    (hf : (v :: vs).length ≤ fuel) (hfo : old.length ≤ fuel) :
    ∃ h1 l1, Copy (arrayIt (v :: vs)) noThrow fuel h l 0 (v :: vs).length
          = Outcome.ok (h1, l1) ∧
      toList fuel h1 l1 = Outcome.ok (v :: vs) ∧ l1.GetSize = (v :: vs).length := by
  have hR := Reads_arrayIt (Heap.Extends h) (v :: vs) (v :: vs).length 0 (by simp)
  rw [List.drop_zero] at hR
  obtain ⟨h1, new, hcopy, hh1, hval, _, _, _⟩ :=
    Copy_ok (arrayIt (v :: vs)) noThrow fuel h l old 0 (v :: vs).length v vs hR hold
      (fun _ _ _ => rfl) (by simp at hf; omega) hfo
  have hlen := length_of_values_eq new _ hval
  refine ⟨h1, _, hcopy, ?_, rfl⟩
  rw [toList_of_Holds h1 _ new fuel hh1 (by omega), hval]

/-- C11, at the list `[1, 2]` built by the initializer-list constructor:
`Copy` over an empty range returns at once, so the list still holds `1, 2`
and `GetSize()` is still `2`, not `0`; over the one-element range `7` the
same call replaces the contents by `7`. -/
theorem Copy_empty_range_keeps_target :
    ∃ h1 l1,
      ofInitializerList noThrow 3 (Heap.empty : Heap Nat) [1, 2] = Outcome.ok (h1, l1) ∧
      Copy (arrayIt ([] : List Nat)) noThrow 3 h1 l1 0 ([] : List Nat).length
        = Outcome.ok (h1, l1) ∧
      toList 3 h1 l1 = Outcome.ok [1, 2] ∧ l1.GetSize = 2 ∧
      ∃ h2 l2, Copy (arrayIt [7]) noThrow 3 h1 l1 0 [7].length = Outcome.ok (h2, l2) ∧
        toList 3 h2 l2 = Outcome.ok [7] ∧ l2.GetSize = 1 :=
  ⟨⟨[some ⟨1, some 1⟩, some ⟨2, none⟩]⟩, ⟨some 0, 2⟩, by decide, by decide, by decide, rfl,
    ⟨[none, none, some ⟨7, none⟩]⟩, ⟨some 2, 1⟩, by decide, by decide, rfl⟩

end PublicCopy

/-! ## swap and Clear -/

section SwapClear

open SingleLinkedList

variable {α : Type}

/-- C12: after `A.swap(B)`, and equally after the free function
`swap(A, B)`, `A` owns the nodes `B` owned and has the size `B` had, and `B`
owns the nodes and has the size `A` had; the free store, and so every
element value, is untouched. -/
theorem swap_spec (h : Heap α) (A B : SingleLinkedList) (a b : List (Nat × α))
    (hA : Holds h A a) (hB : Holds h B b) :
    SLL.swap A B = A.swap B ∧
      Holds h (A.swap B).1 b ∧ Holds h (A.swap B).2 a ∧
      (A.swap B).1.GetSize = B.GetSize ∧ (A.swap B).2.GetSize = A.GetSize ∧
      ∀ fuel, a.length ≤ fuel → b.length ≤ fuel →
        toList fuel h (A.swap B).1 = Outcome.ok (values b) ∧
        toList fuel h (A.swap B).2 = Outcome.ok (values a) := by
  have h1 : Holds h (A.swap B).1 b := hB
  have h2 : Holds h (A.swap B).2 a := hA
  exact ⟨rfl, h1, h2, rfl, rfl, fun fuel hfa hfb =>
    ⟨toList_of_Holds _ _ _ fuel h1 hfb, toList_of_Holds _ _ _ fuel h2 hfa⟩⟩

theorem swap_spec_witness :
    toList 2 (⟨[some ⟨1, some 1⟩, some ⟨2, none⟩, some ⟨9, none⟩]⟩ : Heap Nat)
        (SingleLinkedList.swap ⟨some 0, 2⟩ ⟨some 2, 1⟩).1 = Outcome.ok [9] ∧
      toList 2 (⟨[some ⟨1, some 1⟩, some ⟨2, none⟩, some ⟨9, none⟩]⟩ : Heap Nat)
        (SingleLinkedList.swap ⟨some 0, 2⟩ ⟨some 2, 1⟩).2 = Outcome.ok [1, 2] :=
  (swap_spec (⟨[some ⟨1, some 1⟩, some ⟨2, none⟩, some ⟨9, none⟩]⟩ : Heap Nat)
    ⟨some 0, 2⟩ ⟨some 2, 1⟩ [(0, 1), (1, 2)] [(2, 9)]
    ⟨⟨rfl, some 1, rfl, rfl, none, rfl, rfl⟩, rfl⟩ ⟨⟨rfl, none, rfl, rfl⟩, rfl⟩).2.2.2.2.2 2
    (by decide) (by decide)

theorem Clear_empty (fuel : Nat) (h : Heap α) :
    Clear fuel h SingleLinkedList.empty = Outcome.ok (h, SingleLinkedList.empty) := by
  simp [Clear, SingleLinkedList.empty]

/-- C13: on a list that owns `nodes`, `Clear()` leaves the list empty:
nothing is reachable from the sentinel, `GetSize()` is `0` and `IsEmpty()` is
true. On a list that is already empty it changes nothing, so a second call
gives the state of the first. -/
theorem Clear_spec (h : Heap α) (l : SingleLinkedList) (nodes : List (Nat × α)) (fuel : Nat)
    (hh : Holds h l nodes) (hf : nodes.length ≤ fuel) :
    ∃ h1 l1, Clear fuel h l = Outcome.ok (h1, l1) ∧
      l1.head_next_node = none ∧ l1.GetSize = 0 ∧ l1.IsEmpty = true ∧
      l1.begin = l1.cend ∧ (∀ fuel1, toList fuel1 h1 l1 = Outcome.ok []) ∧
      (∀ fuel2, Clear fuel2 h1 l1 = Outcome.ok (h1, l1)) ∧
      (nodes = [] → h1 = h ∧ l1 = l) := by
  obtain ⟨h1, hcl, _, hrd⟩ := Clear_of_Holds h l nodes fuel hh hf
  refine ⟨h1, SingleLinkedList.empty, hcl, rfl, rfl, rfl, rfl, fun fuel1 => ?_,
    fun fuel2 => Clear_empty fuel2 h1, fun hnil => ?_⟩
  · exact toList_of_Holds h1 _ [] fuel1 (Holds_empty h1) (Nat.zero_le _)
  · subst hnil
    have hl := eq_empty_of_Holds_nil h l hh
    subst hl
    have := Clear_empty fuel h
    rw [this] at hcl
    injection hcl with hcl
    injection hcl with e1 _
    exact ⟨e1.symm, rfl⟩

theorem Clear_spec_witness :
    ∃ h1 l1, Clear 2 (⟨[some ⟨1, some 1⟩, some ⟨2, none⟩]⟩ : Heap Nat) ⟨some 0, 2⟩
        = Outcome.ok (h1, l1) ∧
      l1.GetSize = 0 ∧ l1.IsEmpty = true ∧ Clear 2 h1 l1 = Outcome.ok (h1, l1) :=
  let ⟨h1, l1, hcl, _, hsz, hem, _, _, hidem, _⟩ :=
    Clear_spec (⟨[some ⟨1, some 1⟩, some ⟨2, none⟩]⟩ : Heap Nat) ⟨some 0, 2⟩
      [(0, 1), (1, 2)] 2 ⟨⟨rfl, some 1, rfl, rfl, none, rfl, rfl⟩, rfl⟩ (by decide)
  ⟨h1, l1, hcl, hsz, hem, hidem 2⟩

end SwapClear

/-! ## Repeated PopFront, and EraseAfter at the front -/

section PopFrontTimes

open SingleLinkedList

variable {α : Type}

theorem PopFront_times_empty (h : Heap α) (m : Nat) :
    PopFront_times m h SingleLinkedList.empty = some (h, SingleLinkedList.empty) := by
  induction m with
  | zero => rfl
  | succ m ih => simp only [PopFront_times, PopFront, SingleLinkedList.empty, if_true]; exact ih

theorem PopFront_times_of_Holds (nodes : List (Nat × α)) :
    ∀ (h : Heap α) (l : SingleLinkedList), Holds h l nodes →
      ∃ h1, PopFront_times nodes.length h l = some (h1, SingleLinkedList.empty) := by
  induction nodes with
  | nil =>
    intro h l hh
    rw [eq_empty_of_Holds_nil h l hh]
    exact ⟨h, rfl⟩
  | cons n rest ih =>
    intro h l hh
    obtain ⟨a, x⟩ := n
    obtain ⟨nx, _, hpop, hh1⟩ := Holds_PopFront h l a x rest hh
    obtain ⟨h1, hrest⟩ := ih _ _ hh1
    exact ⟨h1, by simp only [List.length_cons, PopFront_times, hpop]; exact hrest⟩

/-- C18: on a list satisfying the class invariant with `GetSize() = n`, `n`
calls of `PopFront()` leave the list empty (size `0`, `IsEmpty()` true,
`begin() == end()`, nothing to iterate), and any number of further calls
leaves that state unchanged. -/
theorem PopFront_times_spec (h : Heap α) (l : SingleLinkedList) (nodes : List (Nat × α))
    (hh : Holds h l nodes) :
    ∃ h1 l1, PopFront_times l.GetSize h l = some (h1, l1) ∧
      l1.GetSize = 0 ∧ l1.IsEmpty = true ∧ l1.begin = l1.cend ∧
      (∀ fuel, toList fuel h1 l1 = Outcome.ok []) ∧
      ∀ m, PopFront_times m h1 l1 = some (h1, l1) := by
  obtain ⟨h1, hpop⟩ := PopFront_times_of_Holds nodes h l hh
  have hsz : l.GetSize = nodes.length := hh.2
  rw [← hsz] at hpop
  exact ⟨h1, SingleLinkedList.empty, hpop, rfl, rfl, rfl,
    fun fuel => toList_of_Holds h1 _ [] fuel (Holds_empty h1) (Nat.zero_le _),
    fun m => PopFront_times_empty h1 m⟩

theorem PopFront_times_spec_witness :
    ∃ h1 l1, PopFront_times 2 (⟨[some ⟨5, some 1⟩, some ⟨7, none⟩]⟩ : Heap Nat) ⟨some 0, 2⟩
        = some (h1, l1) ∧
      l1.GetSize = 0 ∧ l1.IsEmpty = true ∧ PopFront_times 3 h1 l1 = some (h1, l1) :=
  let ⟨h1, l1, hpop, hsz, hem, _, _, hmore⟩ :=
    PopFront_times_spec (⟨[some ⟨5, some 1⟩, some ⟨7, none⟩]⟩ : Heap Nat) ⟨some 0, 2⟩
      [(0, 5), (1, 7)] ⟨⟨rfl, some 1, rfl, rfl, none, rfl, rfl⟩, rfl⟩
  ⟨h1, l1, hpop, hsz, hem, hmore 3⟩

/-- C19: on a list satisfying the class invariant, empty or not,
`EraseAfter(before_begin())` and `PopFront()` both return and leave the same
free store and the same list object, hence the same element sequence and the
same `GetSize()`. -/
theorem EraseAfter_before_begin_spec (h : Heap α) (l : SingleLinkedList)
    (nodes : List (Nat × α)) (hh : Holds h l nodes) :
    ∃ it h1 l1, EraseAfter h l l.before_begin = some (it, h1, l1) ∧
      PopFront h l = some (h1, l1) ∧ Holds h1 l1 nodes.tail ∧
      ∀ fuel, nodes.length ≤ fuel + 1 → toList fuel h1 l1 = Outcome.ok (values nodes).tail := by
  cases nodes with
  | nil =>
    have hl := eq_empty_of_Holds_nil h l hh
    subst hl
    refine ⟨⟨NodePtr.null⟩, h, SingleLinkedList.empty, by
      simp [EraseAfter, before_begin, next_node, SingleLinkedList.empty], by
      simp [PopFront, SingleLinkedList.empty], hh, fun fuel _ => ?_⟩
    exact toList_of_Holds h _ [] fuel hh (Nat.zero_le _)
  | cons n rest =>
    obtain ⟨a, x⟩ := n
    obtain ⟨nx, hr, hpop, hh1⟩ := Holds_PopFront h l a x rest hh
    have hp : l.head_next_node = some a := hh.1.1
    have hs : l.size_ = rest.length + 1 := hh.2
    refine ⟨⟨NodePtr.ofNext nx⟩, _, _, ?_, hpop, hh1, fun fuel hf => ?_⟩
    · simp [EraseAfter, before_begin, next_node, set_next_node, hp, hr, hs, size_t_dec]
    · rw [toList_of_Holds _ _ rest fuel hh1 (by simpa using hf)]
      simp [values]

theorem EraseAfter_before_begin_spec_witness :
    ∃ it h1 l1,
      EraseAfter (⟨[some ⟨5, some 1⟩, some ⟨7, none⟩]⟩ : Heap Nat) ⟨some 0, 2⟩ ⟨NodePtr.head⟩
        = some (it, h1, l1) ∧
      PopFront (⟨[some ⟨5, some 1⟩, some ⟨7, none⟩]⟩ : Heap Nat) ⟨some 0, 2⟩ = some (h1, l1) ∧
      toList 1 h1 l1 = Outcome.ok [7] :=
  let ⟨it, h1, l1, her, hpop, _, htl⟩ :=
    EraseAfter_before_begin_spec (⟨[some ⟨5, some 1⟩, some ⟨7, none⟩]⟩ : Heap Nat)
      ⟨some 0, 2⟩ [(0, 5), (1, 7)] ⟨⟨rfl, some 1, rfl, rfl, none, rfl, rfl⟩, rfl⟩
  ⟨it, h1, l1, her, hpop, htl 1 (by decide)⟩

end PopFrontTimes

/-! ## What operator== computes -/

section EqualityPrefix

open SingleLinkedList

variable {α : Type}

/-- Pairwise comparison of two sequences over the length of the shorter one. -/
theorem all_zip_iff (f : α → α → Bool) (xs : List α) :
    ∀ ys : List α, ((xs.zip ys).all fun p => f p.1 p.2) = true ↔
      ∀ (i : Nat) (x y : α), xs[i]? = some x → ys[i]? = some y → f x y = true := by
  induction xs with
  | nil => intro ys; simp
  | cons a as ih =>
    intro ys
    cases ys with
    | nil => simp
    | cons b bs =>
      simp only [List.zip_cons_cons, List.all_cons, Bool.and_eq_true, ih bs]
      constructor
      · rintro ⟨h0, hrest⟩ i x y hx hy
        cases i with
        | zero =>
          simp only [List.getElem?_cons_zero, Option.some.injEq] at hx hy
          subst hx hy
          exact h0
        | succ i =>
          simp only [List.getElem?_cons_succ] at hx hy
          exact hrest i x y hx hy
      · intro hall
        exact ⟨hall 0 a b (by simp) (by simp), fun i x y hx hy => hall (i + 1) x y (by simpa using hx)
          (by simpa using hy)⟩

theorem pairwise_eq_iff_take (xs : List α) :
    ∀ ys : List α, xs.length ≤ ys.length →
      ((∀ (i : Nat) (x y : α), xs[i]? = some x → ys[i]? = some y → x = y) ↔
        xs = ys.take xs.length) := by
  induction xs with
  | nil => intro ys _; simp
  | cons a as ih =>
    intro ys hlen
    cases ys with
    | nil => simp at hlen
    | cons b bs =>
      have hlen' : as.length ≤ bs.length := by simpa using hlen
      simp only [List.length_cons, List.take_succ_cons, List.cons.injEq, ← ih bs hlen']
      constructor
      · intro hall
        exact ⟨hall 0 a b (by simp) (by simp), fun i x y hx hy => hall (i + 1) x y (by simpa using hx)
          (by simpa using hy)⟩
      · rintro ⟨h0, hrest⟩ i x y hx hy
        cases i with
        | zero =>
          simp only [List.getElem?_cons_zero, Option.some.injEq] at hx hy
          subst hx hy
          exact h0
        | succ i =>
          simp only [List.getElem?_cons_succ] at hx hy
          exact hrest i x y hx hy

theorem std_equal_of_Chain [BEq α] (h : Heap α) (l1 l2 : SingleLinkedList)
    (xs : List (Nat × α)) :
    ∀ (ys : List (Nat × α)) (p q : Option Nat) (fuel : Nat), Chain h p xs → Chain h q ys →
      xs.length ≤ ys.length → xs.length ≤ fuel →
      std_equal (listIt l1) (listIt l2) fuel h ⟨NodePtr.ofNext p⟩ ⟨NodePtr.null⟩
          ⟨NodePtr.ofNext q⟩
        = Outcome.ok (((values xs).zip (values ys)).all fun p => p.1 == p.2) := by
  induction xs with
  | nil =>
    intro ys p q fuel hc1 _ _ _
    have hp : p = none := hc1
    subst hp
    unfold std_equal
    simp [listIt_eq_null_null, values]
  | cons n rest ih =>
    intro ys p q fuel hc1 hc2 hlen hf
    obtain ⟨a, x⟩ := n
    obtain ⟨hp, nx, hr, hrest⟩ := hc1
    subst hp
    cases ys with
    | nil => simp at hlen
    | cons m rest2 =>
      obtain ⟨b, y⟩ := m
      obtain ⟨hq, ny, hr2, hrest2⟩ := hc2
      subst hq
      cases fuel with
      | zero => simp at hf
      | succ fuel =>
        rw [std_equal]
        simp only [NodePtr.ofNext_some, listIt_eq_node_null, listIt_deref_node h l1 a _ hr,
          listIt_deref_node h l2 b _ hr2, listIt_incr_node h l1 a _ hr,
          listIt_incr_node h l2 b _ hr2,
          ih rest2 nx ny fuel hrest hrest2 (by simpa using hlen) (by simpa using hf)]
        cases hxy : x == y <;> simp [values, hxy]

/-- C20: for two lists satisfying the class invariant with `lhs` no longer
than `rhs`, `operator==(lhs, rhs)` returns, and returns `true` exactly when
every element of `lhs` equals, by the equality of the element type, the
element of `rhs` at the same position; when that equality is plain equality
this is to say that `lhs` is the sequence of the first `GetSize(lhs)` elements
of `rhs`. Elements of `rhs` past that length have no influence. -/
theorem operator_eq_spec [BEq α] (h : Heap α) (lhs rhs : SingleLinkedList)
    (L R : List (Nat × α)) (fuel : Nat) (hL : Holds h lhs L) (hR : Holds h rhs R)
    (hlen : L.length ≤ R.length) (hf : L.length ≤ fuel) :
    ∃ b, operator_eq fuel h lhs rhs = Outcome.ok b ∧
      (b = true ↔ ∀ (i : Nat) (x y : α), (values L)[i]? = some x → (values R)[i]? = some y →
        (x == y) = true) ∧
      ((∀ x y : α, (x == y) = true ↔ x = y) →
        (b = true ↔ values L = (values R).take lhs.GetSize)) := by
  refine ⟨_, std_equal_of_Chain h lhs rhs L R _ _ fuel hL.1 hR.1 hlen hf,
    all_zip_iff (fun x y => x == y) (values L) (values R), fun hlaw => ?_⟩
  have hsz : lhs.GetSize = (values L).length := by
    show lhs.size_ = _
    rw [hL.2]; simp [values]
  rw [hsz, ← pairwise_eq_iff_take (values L) (values R) (by simpa [values] using hlen),
    all_zip_iff (fun x y => x == y) (values L) (values R)]
  constructor
  · intro hall i x y hx hy
    exact (hlaw x y).mp (hall i x y hx hy)
  · intro hall i x y hx hy
    exact (hlaw x y).mpr (hall i x y hx hy)

theorem operator_eq_spec_witness :
    ∃ b, operator_eq 3
        (⟨[some ⟨1, some 1⟩, some ⟨2, none⟩, some ⟨1, some 3⟩, some ⟨2, some 4⟩,
          some ⟨3, none⟩]⟩ : Heap Nat) ⟨some 0, 2⟩ ⟨some 2, 3⟩ = Outcome.ok b ∧
      (b = true ↔ [1, 2] = List.take 2 [1, 2, 3]) :=
  let ⟨b, heq, _, htake⟩ := operator_eq_spec
    (⟨[some ⟨1, some 1⟩, some ⟨2, none⟩, some ⟨1, some 3⟩, some ⟨2, some 4⟩,
      some ⟨3, none⟩]⟩ : Heap Nat) ⟨some 0, 2⟩ ⟨some 2, 3⟩ [(0, 1), (1, 2)]
    [(2, 1), (3, 2), (4, 3)] 3 ⟨⟨rfl, some 1, rfl, rfl, none, rfl, rfl⟩, rfl⟩
    ⟨⟨rfl, some 3, rfl, rfl, some 4, rfl, rfl, none, rfl, rfl⟩, rfl⟩ (by decide) (by decide)
  ⟨b, heq, htake (fun x y => by simp)⟩

end EqualityPrefix

/-! ## Lexicographic ordering -/

section LexOrdering

open SingleLinkedList

variable {α : Type}

theorem lexLess_nil_right (lt : α → α → Bool) (xs : List α) : lexLess lt xs [] = false := by
  cases xs <;> rfl

theorem std_lexicographical_compare_of_Chain (lt : α → α → Bool) (h : Heap α)
    (l1 l2 : SingleLinkedList) (xs : List (Nat × α)) :
    ∀ (ys : List (Nat × α)) (p q : Option Nat) (fuel : Nat), Chain h p xs → Chain h q ys →
      min xs.length ys.length ≤ fuel →
      std_lexicographical_compare lt (listIt l1) (listIt l2) fuel h ⟨NodePtr.ofNext p⟩
          ⟨NodePtr.null⟩ ⟨NodePtr.ofNext q⟩ ⟨NodePtr.null⟩
        = Outcome.ok (lexLess lt (values xs) (values ys)) := by
  induction xs with
  | nil =>
    intro ys p q fuel hc1 hc2 _
    have hp : p = none := hc1
    subst hp
    cases ys with
    | nil =>
      have hq : q = none := hc2
      subst hq
      unfold std_lexicographical_compare
      simp [listIt_eq_null_null, values, lexLess]
    | cons m rest2 =>
      obtain ⟨b, y⟩ := m
      obtain ⟨hq, _⟩ := hc2
      subst hq
      unfold std_lexicographical_compare
      simp [listIt_eq_null_null, listIt_eq_node_null, values, lexLess]
  | cons n rest ih =>
    intro ys p q fuel hc1 hc2 hf
    obtain ⟨a, x⟩ := n
    obtain ⟨hp, nx, hr, hrest⟩ := hc1
    subst hp
    cases ys with
    | nil =>
      have hq : q = none := hc2
      subst hq
      unfold std_lexicographical_compare
      simp [listIt_eq_null_null, listIt_eq_node_null, values, lexLess]
    | cons m rest2 =>
      obtain ⟨b, y⟩ := m
      obtain ⟨hq, ny, hr2, hrest2⟩ := hc2
      subst hq
      cases fuel with
      | zero => simp at hf
      | succ fuel =>
        have hf' : min rest.length rest2.length ≤ fuel := by
          simp only [List.length_cons] at hf
          omega
        rw [std_lexicographical_compare]
        simp only [NodePtr.ofNext_some, listIt_eq_node_null, listIt_deref_node h l1 a _ hr,
          listIt_deref_node h l2 b _ hr2, listIt_incr_node h l1 a _ hr,
          listIt_incr_node h l2 b _ hr2, ih rest2 nx ny fuel hrest hrest2 hf']
        cases hxy : lt x y <;> cases hyx : lt y x <;> simp [values, lexLess, hxy, hyx]

theorem operator_lt_of_Holds (lt : α → α → Bool) (h : Heap α) (lhs rhs : SingleLinkedList)
    (L R : List (Nat × α)) (fuel : Nat) (hL : Holds h lhs L) (hR : Holds h rhs R)
    (hf : min L.length R.length ≤ fuel) :
    operator_lt lt fuel h lhs rhs = Outcome.ok (lexLess lt (values L) (values R)) :=
  std_lexicographical_compare_of_Chain lt h lhs rhs L R _ _ fuel hL.1 hR.1 hf

/-- The comparison computed from the front is the comparison the
specification words by the first position where the elements differ. -/
theorem lexLess_iff_LexLess (lt : α → α → Bool) (xs : List α) :
    ∀ ys : List α, lexLess lt xs ys = true ↔ LexLess lt xs ys := by
  induction xs with
  | nil =>
    intro ys
    cases ys with
    | nil =>
      simp only [lexLess, Bool.false_eq_true, false_iff]
      rintro ⟨i, _, h | h⟩
      · obtain ⟨x, y, hx, _⟩ := h; simp at hx
      · obtain ⟨_, y, hy⟩ := h; simp at hy
    | cons y ys =>
      simp only [lexLess, true_iff]
      exact ⟨0, fun j hj => absurd hj (Nat.not_lt_zero j), Or.inr ⟨by simp, y, by simp⟩⟩
  | cons x xs ih =>
    intro ys
    cases ys with
    | nil =>
      simp only [lexLess, Bool.false_eq_true, false_iff]
      rintro ⟨i, _, h | h⟩
      · obtain ⟨_, y, _, hy, _⟩ := h; simp at hy
      · obtain ⟨_, y, hy⟩ := h; simp at hy
    | cons y ys =>
      simp only [lexLess]
      by_cases hxy : lt x y = true
      · simp only [hxy, if_true, true_iff]
        exact ⟨0, fun j hj => absurd hj (Nat.not_lt_zero j), Or.inl ⟨x, y, by simp, by simp, hxy⟩⟩
      · have hxy' : lt x y = false := by simpa using hxy
        by_cases hyx : lt y x = true
        · simp only [hxy', hyx, if_true, Bool.false_eq_true, if_false, false_iff]
          rintro ⟨i, hpre, h | h⟩
          · cases i with
            | zero =>
              obtain ⟨x', y', hx, hy, hlt⟩ := h
              simp only [List.getElem?_cons_zero, Option.some.injEq] at hx hy
              subst hx hy
              rw [hxy'] at hlt; cases hlt
            | succ i =>
              obtain ⟨x', y', hx, hy, _, h2⟩ := hpre 0 (Nat.succ_pos i)
              simp only [List.getElem?_cons_zero, Option.some.injEq] at hx hy
              subst hx hy
              rw [hyx] at h2; cases h2
          · cases i with
            | zero => simp at h
            | succ i =>
              obtain ⟨x', y', hx, hy, _, h2⟩ := hpre 0 (Nat.succ_pos i)
              simp only [List.getElem?_cons_zero, Option.some.injEq] at hx hy
              subst hx hy
              rw [hyx] at h2; cases h2
        · have hyx' : lt y x = false := by simpa using hyx
          simp only [hxy', hyx', Bool.false_eq_true, if_false, ih ys]
          constructor
          · rintro ⟨i, hpre, hi⟩
            refine ⟨i + 1, fun j hj => ?_, by simpa using hi⟩
            cases j with
            | zero => exact ⟨x, y, by simp, by simp, hxy', hyx'⟩
            | succ j => simpa using hpre j (by omega)
          · rintro ⟨i, hpre, hi⟩
            cases i with
            | zero =>
              rcases hi with ⟨x', y', hx, hy, hlt⟩ | ⟨hx, _⟩
              · simp only [List.getElem?_cons_zero, Option.some.injEq] at hx hy
                subst hx hy
                rw [hxy'] at hlt; cases hlt
              · simp at hx
            | succ i =>
              exact ⟨i, fun j hj => by simpa using hpre (j + 1) (by omega), by simpa using hi⟩

/-- C15: for two lists satisfying the class invariant, `operator<(lhs, rhs)`
returns the lexicographic comparison of the two element sequences under the
less-than of the element type: it is `true` exactly when at the first
position where the elements differ the element of `lhs` is the lesser one,
or there is no such position and `lhs` is strictly shorter. -/
theorem operator_lt_spec (lt : α → α → Bool) (h : Heap α) (lhs rhs : SingleLinkedList)
    (L R : List (Nat × α)) (fuel : Nat) (hL : Holds h lhs L) (hR : Holds h rhs R)
    (hf : min L.length R.length ≤ fuel) :
    ∃ b, operator_lt lt fuel h lhs rhs = Outcome.ok b ∧
      b = lexLess lt (values L) (values R) ∧
      (b = true ↔ LexLess lt (values L) (values R)) :=
  ⟨_, operator_lt_of_Holds lt h lhs rhs L R fuel hL hR hf, rfl,
    lexLess_iff_LexLess lt (values L) (values R)⟩

theorem operator_lt_spec_witness :
    (∃ b, operator_lt (fun x y => decide (x < y)) 3
        (⟨[some ⟨1, some 1⟩, some ⟨2, none⟩, some ⟨1, some 3⟩, some ⟨2, some 4⟩,
          some ⟨3, none⟩]⟩ : Heap Nat) ⟨some 0, 2⟩ ⟨some 2, 3⟩ = Outcome.ok b ∧ b = true) ∧
      (∃ b, operator_lt (fun x y => decide (x < y)) 3
        (⟨[some ⟨1, none⟩]⟩ : Heap Nat) SingleLinkedList.empty ⟨some 0, 1⟩
          = Outcome.ok b ∧ b = true) ∧
      ∃ b, operator_lt (fun x y => decide (x < y)) 3
        (⟨[some ⟨1, some 1⟩, some ⟨2, none⟩, some ⟨1, some 3⟩, some ⟨2, some 4⟩,
          some ⟨3, none⟩]⟩ : Heap Nat) ⟨some 2, 3⟩ ⟨some 2, 3⟩ = Outcome.ok b ∧ b = false := by
  obtain ⟨b1, h1, e1, _⟩ := operator_lt_spec (fun x y => decide (x < y))
    (⟨[some ⟨1, some 1⟩, some ⟨2, none⟩, some ⟨1, some 3⟩, some ⟨2, some 4⟩,
      some ⟨3, none⟩]⟩ : Heap Nat) ⟨some 0, 2⟩ ⟨some 2, 3⟩ [(0, 1), (1, 2)]
    [(2, 1), (3, 2), (4, 3)] 3 ⟨⟨rfl, some 1, rfl, rfl, none, rfl, rfl⟩, rfl⟩
    ⟨⟨rfl, some 3, rfl, rfl, some 4, rfl, rfl, none, rfl, rfl⟩, rfl⟩ (by decide)
  obtain ⟨b2, h2, e2, _⟩ := operator_lt_spec (fun x y => decide (x < y))
    (⟨[some ⟨1, none⟩]⟩ : Heap Nat) SingleLinkedList.empty ⟨some 0, 1⟩ [] [(0, 1)] 3
    ⟨rfl, rfl⟩ ⟨⟨rfl, none, rfl, rfl⟩, rfl⟩ (by decide)
  obtain ⟨b3, h3, e3, _⟩ := operator_lt_spec (fun x y => decide (x < y))
    (⟨[some ⟨1, some 1⟩, some ⟨2, none⟩, some ⟨1, some 3⟩, some ⟨2, some 4⟩,
      some ⟨3, none⟩]⟩ : Heap Nat) ⟨some 2, 3⟩ ⟨some 2, 3⟩ [(2, 1), (3, 2), (4, 3)]
    [(2, 1), (3, 2), (4, 3)] 3
    ⟨⟨rfl, some 3, rfl, rfl, some 4, rfl, rfl, none, rfl, rfl⟩, rfl⟩
    ⟨⟨rfl, some 3, rfl, rfl, some 4, rfl, rfl, none, rfl, rfl⟩, rfl⟩ (by decide)
  exact ⟨⟨b1, h1, e1.trans (by decide)⟩, ⟨b2, h2, e2.trans (by decide)⟩,
    ⟨b3, h3, e3.trans (by decide)⟩⟩

/-- C16: for two lists satisfying the class invariant all four ordering
operators return, and the derived ones are fixed by `operator<` alone:
`a <= b` is `!(b < a)`, `a > b` is `b < a` and `a >= b` is `!(a < b)`. -/
theorem derived_orderings_spec (lt : α → α → Bool) (h : Heap α) (a b : SingleLinkedList)
    (A B : List (Nat × α)) (fuel : Nat) (hA : Holds h a A) (hB : Holds h b B)
    (hf : min A.length B.length ≤ fuel) :
    ∃ ab ba, operator_lt lt fuel h a b = Outcome.ok ab ∧
      operator_lt lt fuel h b a = Outcome.ok ba ∧
      operator_le lt fuel h a b = Outcome.ok (!ba) ∧
      operator_gt lt fuel h a b = Outcome.ok ba ∧
      operator_ge lt fuel h a b = Outcome.ok (!ab) := by
  have hab := operator_lt_of_Holds lt h a b A B fuel hA hB hf
  have hba := operator_lt_of_Holds lt h b a B A fuel hB hA (by rw [Nat.min_comm]; exact hf)
  exact ⟨_, _, hab, hba, by simp [operator_le, hba], by simp [operator_gt, hba],
    by simp [operator_ge, hab]⟩

theorem derived_orderings_spec_witness :
    operator_le (fun x y => decide (x < y)) 3
        (⟨[some ⟨1, some 1⟩, some ⟨2, none⟩, some ⟨1, some 3⟩, some ⟨2, some 4⟩,
          some ⟨3, none⟩]⟩ : Heap Nat) ⟨some 2, 3⟩ ⟨some 2, 3⟩ = Outcome.ok true ∧
      operator_gt (fun x y => decide (x < y)) 3
        (⟨[some ⟨1, some 1⟩, some ⟨2, none⟩, some ⟨1, some 3⟩, some ⟨2, some 4⟩,
          some ⟨3, none⟩]⟩ : Heap Nat) ⟨some 2, 3⟩ ⟨some 0, 2⟩ = Outcome.ok true := by
  obtain ⟨ab, ba, h1, h2, h3, _, _⟩ := derived_orderings_spec (fun x y => decide (x < y))
    (⟨[some ⟨1, some 1⟩, some ⟨2, none⟩, some ⟨1, some 3⟩, some ⟨2, some 4⟩,
      some ⟨3, none⟩]⟩ : Heap Nat) ⟨some 2, 3⟩ ⟨some 2, 3⟩ [(2, 1), (3, 2), (4, 3)]
    [(2, 1), (3, 2), (4, 3)] 3
    ⟨⟨rfl, some 3, rfl, rfl, some 4, rfl, rfl, none, rfl, rfl⟩, rfl⟩
    ⟨⟨rfl, some 3, rfl, rfl, some 4, rfl, rfl, none, rfl, rfl⟩, rfl⟩ (by decide)
  obtain ⟨ab', ba', h1', h2', _, h4', _⟩ := derived_orderings_spec (fun x y => decide (x < y))
    (⟨[some ⟨1, some 1⟩, some ⟨2, none⟩, some ⟨1, some 3⟩, some ⟨2, some 4⟩,
      some ⟨3, none⟩]⟩ : Heap Nat) ⟨some 2, 3⟩ ⟨some 0, 2⟩ [(2, 1), (3, 2), (4, 3)]
    [(0, 1), (1, 2)] 3
    ⟨⟨rfl, some 3, rfl, rfl, some 4, rfl, rfl, none, rfl, rfl⟩, rfl⟩
    ⟨⟨rfl, some 1, rfl, rfl, none, rfl, rfl⟩, rfl⟩ (by decide)
  have e2 : ba = false := by
    have : operator_lt (fun x y => decide (x < y)) 3
      (⟨[some ⟨1, some 1⟩, some ⟨2, none⟩, some ⟨1, some 3⟩, some ⟨2, some 4⟩,
        some ⟨3, none⟩]⟩ : Heap Nat) ⟨some 2, 3⟩ ⟨some 2, 3⟩ = Outcome.ok false := by decide
    rw [this] at h2
    injection h2 with h2
    exact h2.symm
  have e2' : ba' = true := by
    have : operator_lt (fun x y => decide (x < y)) 3
      (⟨[some ⟨1, some 1⟩, some ⟨2, none⟩, some ⟨1, some 3⟩, some ⟨2, some 4⟩,
        some ⟨3, none⟩]⟩ : Heap Nat) ⟨some 0, 2⟩ ⟨some 2, 3⟩ = Outcome.ok true := by decide
    rw [this] at h2'
    injection h2' with h2'
    exact h2'.symm
  subst e2 e2'
  exact ⟨h3, h4'⟩

end LexOrdering

/-! ## operator<= as a total preorder -/

section TotalPreorder

open SingleLinkedList

variable {α : Type}

theorem lt_asymm_of_strict (lt : α → α → Bool) (hirr : ∀ x, lt x x = false)
    (htrans : ∀ x y z, lt x y = true → lt y z = true → lt x z = true) (x y : α)
    (hxy : lt x y = true) : lt y x = false := by
  cases hyx : lt y x with
  | false => rfl
  | true =>
    have := htrans x y x hxy hyx
    rw [hirr x] at this
    cases this

theorem lexLess_irrefl (lt : α → α → Bool) (hirr : ∀ x, lt x x = false) (xs : List α) :
    lexLess lt xs xs = false := by
  induction xs with
  | nil => rfl
  | cons x xs ih => simp [lexLess, hirr x, ih]

theorem lexLess_asymm (lt : α → α → Bool) (hirr : ∀ x, lt x x = false)
    (htrans : ∀ x y z, lt x y = true → lt y z = true → lt x z = true) (xs : List α) :
    ∀ ys : List α, lexLess lt xs ys = true → lexLess lt ys xs = false := by
  induction xs with
  | nil => intro ys _; exact lexLess_nil_right lt ys
  | cons x xs ih =>
    intro ys hlt
    cases ys with
    | nil => simp [lexLess] at hlt
    | cons y ys =>
      simp only [lexLess] at hlt ⊢
      cases hxy : lt x y with
      | true => simp [lt_asymm_of_strict lt hirr htrans x y hxy]
      | false =>
        cases hyx : lt y x with
        | true => simp [hxy, hyx] at hlt
        | false =>
          simp only [hxy, hyx, Bool.false_eq_true, if_false] at hlt ⊢
          exact ih ys hlt

theorem lexLess_le_trans (lt : α → α → Bool) (hirr : ∀ x, lt x x = false)
    (htrans : ∀ x y z, lt x y = true → lt y z = true → lt x z = true)
    (htri : ∀ x y, lt x y = true ∨ x = y ∨ lt y x = true) (a : List α) :
    ∀ b c : List α, lexLess lt b a = false → lexLess lt c b = false →
      lexLess lt c a = false := by
  induction a with
  | nil => intro b c _ _; exact lexLess_nil_right lt c
  | cons x as ih =>
    intro b c hba hcb
    cases b with
    | nil => simp [lexLess] at hba
    | cons y bs =>
      cases c with
      | nil => simp [lexLess] at hcb
      | cons z cs =>
        simp only [lexLess] at hba hcb ⊢
        -- `y` is not below `x`, and `z` is not below `y`
        have hyx : lt y x = false := by
          cases h : lt y x with
          | false => rfl
          | true => simp [h] at hba
        have hzy : lt z y = false := by
          cases h : lt z y with
          | false => rfl
          | true => simp [h] at hcb
        simp only [hyx, hzy, Bool.false_eq_true, if_false] at hba hcb
        have hzx : lt z x = false := by
          cases h : lt z x with
          | false => rfl
          | true =>
            rcases htri x y with hxy | hxy | hxy
            · have := htrans z x y h hxy
              rw [hzy] at this; cases this
            · subst hxy
              rw [hzy] at h; cases h
            · rw [hyx] at hxy; cases hxy
        simp only [hzx, Bool.false_eq_true, if_false]
        cases hxz : lt x z with
        | true => simp
        | false =>
          simp only [Bool.false_eq_true, if_false]
          have hxz' : x = z := by
            rcases htri x z with h | h | h
            · rw [hxz] at h; cases h
            · exact h
            · rw [hzx] at h; cases h
          subst hxz'
          have hxy : x = y := by
            rcases htri x y with h | h | h
            · rw [hzy] at h; cases h
            · exact h
            · rw [hyx] at h; cases h
          subst hxy
          simp only [hirr x, Bool.false_eq_true, if_false] at hba hcb
          exact ih bs cs hba hcb

/-- C17: when the less-than of the element type is a strict total order
(irreflexive, transitive, and any two distinct elements are comparable),
`operator<=` on lists satisfying the class invariant returns and is a total
preorder: `a <= a` holds, one of `a <= b` and `b <= a` holds, and `a <= b`
with `b <= c` gives `a <= c`. -/
theorem operator_le_total_preorder (lt : α → α → Bool) (hirr : ∀ x, lt x x = false)
    (htrans : ∀ x y z, lt x y = true → lt y z = true → lt x z = true)
    (htri : ∀ x y, lt x y = true ∨ x = y ∨ lt y x = true)
    (h : Heap α) (a b c : SingleLinkedList) (A B C : List (Nat × α)) (fuel : Nat)
    (hA : Holds h a A) (hB : Holds h b B) (hC : Holds h c C)
    (hfA : A.length ≤ fuel) (hfB : B.length ≤ fuel) (hfC : C.length ≤ fuel) :
    operator_le lt fuel h a a = Outcome.ok true ∧
      (∃ r, operator_le lt fuel h a b = Outcome.ok r) ∧
      (operator_le lt fuel h a b = Outcome.ok true ∨
        operator_le lt fuel h b a = Outcome.ok true) ∧
      (operator_le lt fuel h a b = Outcome.ok true →
        operator_le lt fuel h b c = Outcome.ok true →
        operator_le lt fuel h a c = Outcome.ok true) := by
  have hle : ∀ (p q : SingleLinkedList) (P Q : List (Nat × α)), Holds h p P → Holds h q Q →
      P.length ≤ fuel → Q.length ≤ fuel →
      operator_le lt fuel h p q = Outcome.ok (!lexLess lt (values Q) (values P)) := by
    intro p q P Q hP hQ hfP hfQ
    simp [operator_le, operator_lt_of_Holds lt h q p Q P fuel hQ hP
      (Nat.le_trans (Nat.min_le_left _ _) hfQ)]
  rw [hle a a A A hA hA hfA hfA, hle a b A B hA hB hfA hfB, hle b a B A hB hA hfB hfA,
    hle b c B C hB hC hfB hfC, hle a c A C hA hC hfA hfC]
  refine ⟨by simp [lexLess_irrefl lt hirr], ⟨_, rfl⟩, ?_, ?_⟩
  · cases hba : lexLess lt (values B) (values A) with
    | false => left; rfl
    | true =>
      right
      simp [lexLess_asymm lt hirr htrans _ _ hba]
  · intro hab hbc
    have hab' : lexLess lt (values B) (values A) = false := by
      injection hab with hab; simpa using hab
    have hbc' : lexLess lt (values C) (values B) = false := by
      injection hbc with hbc; simpa using hbc
    simp [lexLess_le_trans lt hirr htrans htri _ _ _ hab' hbc']

theorem operator_le_total_preorder_witness :
    operator_le (fun x y => decide (x < y)) 3
        (⟨[some ⟨1, some 1⟩, some ⟨2, none⟩, some ⟨1, some 3⟩, some ⟨2, some 4⟩,
          some ⟨3, none⟩]⟩ : Heap Nat) ⟨some 0, 2⟩ ⟨some 0, 2⟩ = Outcome.ok true ∧
      (operator_le (fun x y => decide (x < y)) 3
          (⟨[some ⟨1, some 1⟩, some ⟨2, none⟩, some ⟨1, some 3⟩, some ⟨2, some 4⟩,
            some ⟨3, none⟩]⟩ : Heap Nat) ⟨some 0, 2⟩ ⟨some 2, 3⟩ = Outcome.ok true ∨
        operator_le (fun x y => decide (x < y)) 3
          (⟨[some ⟨1, some 1⟩, some ⟨2, none⟩, some ⟨1, some 3⟩, some ⟨2, some 4⟩,
            some ⟨3, none⟩]⟩ : Heap Nat) ⟨some 2, 3⟩ ⟨some 0, 2⟩ = Outcome.ok true) :=
  let hw := operator_le_total_preorder (fun x y => decide (x < y))
    (fun x => by simp)
    (fun x y z hxy hyz => by simp only [decide_eq_true_eq] at *; omega)
    (fun x y => by simp only [decide_eq_true_eq]; omega)
    (⟨[some ⟨1, some 1⟩, some ⟨2, none⟩, some ⟨1, some 3⟩, some ⟨2, some 4⟩,
      some ⟨3, none⟩]⟩ : Heap Nat) ⟨some 0, 2⟩ ⟨some 2, 3⟩ ⟨some 2, 3⟩
    [(0, 1), (1, 2)] [(2, 1), (3, 2), (4, 3)] [(2, 1), (3, 2), (4, 3)] 3
    ⟨⟨rfl, some 1, rfl, rfl, none, rfl, rfl⟩, rfl⟩
    ⟨⟨rfl, some 3, rfl, rfl, some 4, rfl, rfl, none, rfl, rfl⟩, rfl⟩
    ⟨⟨rfl, some 3, rfl, rfl, some 4, rfl, rfl, none, rfl, rfl⟩, rfl⟩
    (by decide) (by decide) (by decide)
  ⟨hw.1, hw.2.2.1⟩

end TotalPreorder

/-! ## The size invariant in every reachable state -/

section ReachableStates

open SingleLinkedList

variable {α : Type}

theorem follow_of_Chain (h : Heap α) (nodes : List (Nat × α)) :
    ∀ p : Option Nat, Chain h p nodes →
      follow h nodes.length p = some none ∧
      ∀ k, k < nodes.length → ∃ a, follow h k p = some (some a) := by
  induction nodes with
  | nil =>
    intro p hc
    have hp : p = none := hc
    subst hp
    exact ⟨rfl, fun k hk => absurd hk (Nat.not_lt_zero k)⟩
  | cons n rest ih =>
    intro p hc
    obtain ⟨a, x⟩ := n
    obtain ⟨hp, nx, hr, hrest⟩ := hc
    subst hp
    obtain ⟨hend, hbefore⟩ := ih nx hrest
    refine ⟨by simp only [List.length_cons, follow, hr]; exact hend, fun k hk => ?_⟩
    cases k with
    | zero => exact ⟨a, rfl⟩
    | succ k =>
      obtain ⟨b, hb⟩ := hbefore k (by simpa using hk)
      exact ⟨b, by simp only [follow, hr]; exact hb⟩

/-- The first position of a sequence at which the copy throws. -/
theorem first_throw (throws : Nat → α → Bool) (S : List α)
    (hex : ∃ i v, S[i]? = some v ∧ throws i v = true) :
    ∃ S1 v S3, S = S1 ++ v :: S3 ∧ (∀ i w, S1[i]? = some w → throws i w = false) ∧
      throws S1.length v = true := by
  classical
  have hex' : ∃ i, ∃ v, S[i]? = some v ∧ throws i v = true := hex
  obtain ⟨v, hi, hv⟩ := Nat.find_spec hex'
  have hilt : Nat.find hex' < S.length := by
    by_contra hge
    rw [List.getElem?_eq_none (Nat.le_of_not_lt hge)] at hi
    cases hi
  have hget : S[Nat.find hex'] = v := by
    have := List.getElem?_eq_getElem hilt
    rw [hi] at this
    exact (Option.some.inj this).symm
  have hlen : (S.take (Nat.find hex')).length = Nat.find hex' := by
    rw [List.length_take]; omega
  refine ⟨S.take (Nat.find hex'), v, S.drop (Nat.find hex' + 1), ?_, fun j w hj => ?_, ?_⟩
  · conv_lhs => rw [← List.take_append_drop (Nat.find hex') S]
    rw [List.drop_eq_getElem_cons hilt, hget]
  · have hjlt : j < Nat.find hex' := by
      by_contra hge
      rw [List.getElem?_eq_none (by rw [hlen]; omega)] at hj
      cases hj
    rw [List.getElem?_take_of_lt hjlt] at hj
    have := Nat.find_min hex' hjlt
    by_contra hne
    exact this ⟨w, hj, by simpa using hne⟩
  · rw [hlen]; exact hv

/-- `Copy` on a list satisfying the invariant, over a range that can be read:
either it returns and the list owns a chain of nodes that are fresh or were
its own, or it throws; in both cases no cell of another list is touched. -/
theorem Copy_total {ι : Type} (I : InputIt α ι) (throws : Nat → α → Bool) (fuel : Nat)
    (h : Heap α) (l : SingleLinkedList) (old : List (Nat × α)) (first last : ι) (S : List α)
    (hR : Reads I (Heap.Extends h) first S last) (hold : Holds h l old)
    (hf : S.length ≤ fuel) (hfo : old.length ≤ fuel) :
    (∃ h1 l1 new, Copy I throws fuel h l first last = Outcome.ok (h1, l1) ∧
        Holds h1 l1 new ∧ h.size ≤ h1.size ∧
        (∀ a, a ∈ addrs new → a ∈ addrs old ∨ h.size ≤ a) ∧
        (∀ c, c ∉ addrs old → c < h.size → h1.read c = h.read c)) ∨
      ∃ h1, Copy I throws fuel h l first last = Outcome.threw h1 ∧ Heap.Extends h h1 := by
  by_cases hex : ∃ i v, S[i]? = some v ∧ throws i v = true
  · obtain ⟨S1, v, S3, hS, hthr, hv⟩ := first_throw throws S hex
    subst hS
    right
    exact Copy_throw I throws fuel h l first last S1 v S3 hR hthr hv
      (by simp at hf; omega)
  · left
    have hthr : ∀ i w, S[i]? = some w → throws i w = false := by
      intro i w hi
      by_contra hne
      exact hex ⟨i, w, hi, by simpa using hne⟩
    cases S with
    | nil =>
      exact ⟨h, l, old, Copy_nil I throws fuel h l first last hR, hold, Nat.le_refl _,
        fun a ha => Or.inl ha, fun _ _ _ => rfl⟩
    | cons v vs =>
      obtain ⟨h1, new, hcopy, hh1, _, hge, hsz, hrd⟩ :=
        Copy_ok I throws fuel h l old first last v vs hR hold hthr (by simp at hf; omega) hfo
      exact ⟨h1, _, new, hcopy, hh1, by omega, fun a ha => Or.inr (hge a ha),
        fun c hcn hclt => by rw [hrd c hclt, if_neg hcn]⟩

theorem Inv_of_extends (w : World α) (h1 : Heap α) (hinv : w.Inv)
    (hext : Heap.Extends w.heap h1) : World.Inv ⟨h1, w.objs⟩ := by
  obtain ⟨owned, hholds, hdisj⟩ := hinv
  refine ⟨owned, fun o => ?_, hdisj⟩
  exact ⟨Seg_congr w.heap h1 _ _ _ (hholds o).1 fun c hc =>
    hext.2 c (Seg_addr_lt w.heap _ _ _ (hholds o).1 c hc), (hholds o).2⟩

/-- Replacing the state of one object by a chain of fresh nodes and nodes of
its own keeps the invariant, provided no cell of another chain is touched. -/
theorem Inv_update (w : World α) (owned : Nat → List (Nat × α))
    (hholds : ∀ o, Holds w.heap (w.objs o) (owned o))
    (hdisj : ∀ o o1, o ≠ o1 → ∀ a, a ∈ addrs (owned o) → a ∉ addrs (owned o1))
    (o : Nat) (h1 : Heap α) (l1 : SingleLinkedList) (new : List (Nat × α))
    (hnew : Holds h1 l1 new)
    (hsub : ∀ a, a ∈ addrs new → a ∈ addrs (owned o) ∨ w.heap.size ≤ a)
    (hfr : ∀ c, c ∉ addrs (owned o) → c < w.heap.size → h1.read c = w.heap.read c) :
    World.Inv ⟨h1, fun x => if x = o then l1 else w.objs x⟩ := by
  refine ⟨fun x => if x = o then new else owned x, fun x => ?_, fun x y hxy a ha hay => ?_⟩
  · by_cases hx : x = o
    · simp only [hx, if_true]; exact hnew
    · simp only [hx, if_false]
      exact ⟨Seg_congr w.heap h1 _ _ _ (hholds x).1 fun c hc =>
        hfr c (fun hco => hdisj x o hx c hc hco) (Seg_addr_lt w.heap _ _ _ (hholds x).1 c hc),
        (hholds x).2⟩
  · by_cases hx : x = o
    · have hy : y ≠ o := fun e => hxy (hx.trans e.symm)
      simp only [hx, if_true] at ha
      simp only [hy, if_false] at hay
      rcases hsub a ha with hin | hge
      · exact hdisj o y (Ne.symm hy) a hin hay
      · have := Seg_addr_lt w.heap _ _ _ (hholds y).1 a hay
        omega
    · simp only [hx, if_false] at ha
      by_cases hy : y = o
      · simp only [hy, if_true] at hay
        rcases hsub a hay with hin | hge
        · exact hdisj x o hx a ha hin
        · have := Seg_addr_lt w.heap _ _ _ (hholds x).1 a ha
          omega
      · simp only [hy, if_false] at hay
        exact hdisj x y hxy a ha hay

end ReachableStates

section ReachableSteps

open SingleLinkedList

variable {α : Type}

/-- The general form of `Inv_update`: the new state of the object `o` need
only be known by what it owns. -/
theorem Inv_update_of (w w1 : World α) (owned : Nat → List (Nat × α))
    (hholds : ∀ o, Holds w.heap (w.objs o) (owned o))
    (hdisj : ∀ o o1, o ≠ o1 → ∀ a, a ∈ addrs (owned o) → a ∉ addrs (owned o1))
    (o : Nat) (new : List (Nat × α)) (hobjs : ∀ x, x ≠ o → w1.objs x = w.objs x)
    (hnew : Holds w1.heap (w1.objs o) new)
    (hsub : ∀ a, a ∈ addrs new → a ∈ addrs (owned o) ∨ w.heap.size ≤ a)
    (hfr : ∀ c, c ∉ addrs (owned o) → c < w.heap.size → w1.heap.read c = w.heap.read c) :
    w1.Inv := by
  have hinv := Inv_update w owned hholds hdisj o w1.heap (w1.objs o) new hnew hsub hfr
  have hw : (⟨w1.heap, fun x => if x = o then w1.objs o else w.objs x⟩ : World α) = w1 := by
    cases w1 with
    | mk heap objs =>
      congr 1
      funext x
      by_cases hx : x = o
      · simp [hx]
      · simp only [hx, if_false]; exact (hobjs x hx).symm
  rw [hw] at hinv
  exact hinv

theorem assign_total (throws : Nat → α → Bool) (fuel : Nat) (w : World α) (this rhs : Nat)
    (hinv : w.Inv) (hfr : (w.objs rhs).size_ ≤ fuel) (hft : (w.objs this).size_ ≤ fuel) :
    (∃ w1, assign throws fuel w this rhs = Outcome.ok w1 ∧ w1.Inv) ∨
      ∃ w1, assign throws fuel w this rhs = Outcome.threw w1 ∧ w1.Inv := by
  by_cases hne : this = rhs
  · exact Or.inl ⟨w, by simp [assign, hne], hinv⟩
  · obtain ⟨owned, hholds, hdisj⟩ := hinv
    have hfA : (owned this).length ≤ fuel := by rw [← (hholds this).2]; exact hft
    have hfR : (owned rhs).length ≤ fuel := by rw [← (hholds rhs).2]; exact hfr
    by_cases hex : ∃ i v, (values (owned rhs))[i]? = some v ∧ throws i v = true
    · right
      obtain ⟨S1, v, S3, hS, hthr, hv⟩ := first_throw throws _ hex
      have hi : (values (owned rhs))[S1.length]? = some v := by
        rw [hS, List.getElem?_append_right (Nat.le_refl _)]; simp
      have hbefore : ∀ j u, j < S1.length → (values (owned rhs))[j]? = some u →
          throws j u = false := by
        intro j u hj hju
        rw [hS, List.getElem?_append_left hj] at hju
        exact hthr j u hju
      obtain ⟨h1, hcc, hext⟩ := copyConstruct_throw throws w.heap (w.objs rhs) (owned rhs)
        fuel S1.length v (hholds rhs) hi hv hbefore hfR
      exact ⟨⟨h1, w.objs⟩, by simp only [assign, hne, if_false, hcc],
        Inv_of_extends w h1 ⟨owned, hholds, hdisj⟩ hext⟩
    · left
      have hthr : ∀ i v, (values (owned rhs))[i]? = some v → throws i v = false := by
        intro i v hi
        by_contra hne'
        exact hex ⟨i, v, hi, by simpa using hne'⟩
      obtain ⟨w1, new, hasg, hnew, _, _, hobjs, _, hge, hframe⟩ :=
        assign_ok throws w this rhs (owned this) (owned rhs) fuel hne (hholds this)
          (hholds rhs) (hdisj this rhs hne) hthr hfA hfR
      exact ⟨w1, hasg, Inv_update_of w w1 owned hholds hdisj this new hobjs hnew
        (fun a ha => Or.inr (hge a ha)) hframe⟩

theorem Inv_swap (w : World α) (o other : Nat) (hinv : w.Inv) :
    World.Inv ⟨w.heap, fun x => if x = o then (SLL.swap (w.objs o) (w.objs other)).1
      else if x = other then (SLL.swap (w.objs o) (w.objs other)).2 else w.objs x⟩ := by
  obtain ⟨owned, hholds, hdisj⟩ := hinv
  have hobj : ∀ x, (if x = o then (SLL.swap (w.objs o) (w.objs other)).1
      else if x = other then (SLL.swap (w.objs o) (w.objs other)).2 else w.objs x)
      = w.objs (if x = o then other else if x = other then o else x) := by
    intro x
    by_cases hx : x = o
    · simp only [hx, if_true]; rfl
    · by_cases hy : x = other
      · subst hy
        simp only [hx, if_false, if_true]; rfl
      · simp only [hx, hy, if_false]
  have hinj : ∀ x y : Nat, x ≠ y →
      (if x = o then other else if x = other then o else x)
        ≠ (if y = o then other else if y = other then o else y) := by
    intro x y hxy
    split_ifs <;> omega
  refine ⟨fun x => owned (if x = o then other else if x = other then o else x),
    fun x => ?_, fun x y hxy => hdisj _ _ (hinj x y hxy)⟩
  show Holds w.heap (if x = o then _ else _) _
  rw [hobj x]
  exact hholds _

/-- A call made within the contract from a state satisfying the invariant
returns or throws, and the state it leaves satisfies the invariant. -/
theorem Op.apply_cases (throws : Nat → α → Bool) (fuel : Nat) (w : World α) (op : Op α)
    (hinv : w.Inv) (hv : op.Valid fuel w) :
    (∃ w1, op.apply throws fuel w = Outcome.ok w1 ∧ w1.Inv) ∨
      ∃ w1, op.apply throws fuel w = Outcome.threw w1 ∧ w1.Inv := by
  cases op with
  | mutate o m =>
    left
    obtain ⟨owned, hholds, hdisj⟩ := hinv
    obtain ⟨⟨nodes, hB, hvalid⟩, hf⟩ := hv
    have hnodes : nodes = owned o := Chain_unique w.heap _ _ _ hB.1 (hholds o).1
    subst hnodes
    obtain ⟨h2, B2, nodes2, happ, hB2, _, hsub, hfr⟩ :=
      Mutation.apply_frame fuel w.heap (w.objs o) (owned o) m hB hvalid
        (by rw [← hB.2]; exact hf)
    exact ⟨_, by simp only [Op.apply, happ],
      Inv_update w owned hholds hdisj o h2 B2 nodes2 hB2 hsub hfr⟩
  | copyValues o vals =>
    obtain ⟨owned, hholds, hdisj⟩ := hinv
    obtain ⟨hf, hfo⟩ := hv
    have hR := Reads_arrayIt (Heap.Extends w.heap) vals vals.length 0 (by simp)
    rw [List.drop_zero] at hR
    rcases Copy_total (arrayIt vals) throws fuel w.heap (w.objs o) (owned o) 0 vals.length vals
        hR (hholds o) hf (by rw [← (hholds o).2]; exact hfo) with
      ⟨h1, l1, new, hcopy, hnew, _, hsub, hfr⟩ | ⟨h1, hcopy, hext⟩
    · exact Or.inl ⟨_, by simp only [Op.apply, hcopy],
        Inv_update w owned hholds hdisj o h1 l1 new hnew hsub hfr⟩
    · exact Or.inr ⟨⟨h1, w.objs⟩, by simp only [Op.apply, hcopy],
        Inv_of_extends w h1 ⟨owned, hholds, hdisj⟩ hext⟩
  | copyList o src =>
    obtain ⟨owned, hholds, hdisj⟩ := hinv
    obtain ⟨hfs, hfo⟩ := hv
    have hR := Reads_listIt w.heap (w.objs src) (owned src) _ (hholds src).1
    have hlen : (values (owned src)).length ≤ fuel := by
      rw [← length_of_values_eq (owned src) _ rfl, ← (hholds src).2]; exact hfs
    rcases Copy_total (listIt (w.objs src)) throws fuel w.heap (w.objs o) (owned o)
        (w.objs src).cbegin (w.objs src).cend (values (owned src)) hR (hholds o) hlen
        (by rw [← (hholds o).2]; exact hfo) with
      ⟨h1, l1, new, hcopy, hnew, _, hsub, hfr⟩ | ⟨h1, hcopy, hext⟩
    · exact Or.inl ⟨_, by simp only [Op.apply, hcopy],
        Inv_update w owned hholds hdisj o h1 l1 new hnew hsub hfr⟩
    · exact Or.inr ⟨⟨h1, w.objs⟩, by simp only [Op.apply, hcopy],
        Inv_of_extends w h1 ⟨owned, hholds, hdisj⟩ hext⟩
  | assign o rhs => exact assign_total throws fuel w o rhs hinv hv.1 hv.2
  | swap o other => exact Or.inl ⟨_, rfl, Inv_swap w o other hinv⟩

theorem Inv_of_Reachable (throws : Nat → α → Bool) (fuel : Nat) (w : World α)
    (hr : Reachable throws fuel w) : w.Inv := by
  induction hr with
  | init h => exact ⟨fun _ => [], fun _ => Holds_empty h, fun _ _ _ a ha => by simp [addrs] at ha⟩
  | step_ok w w1 op _ hv happ ih =>
    rcases Op.apply_cases throws fuel w op ih hv with ⟨w2, h2, hinv2⟩ | ⟨w2, h2, _⟩
    · rw [happ] at h2
      injection h2 with h2
      rw [h2]; exact hinv2
    · rw [happ] at h2
      cases h2
  | step_threw w w1 op _ hv happ ih =>
    rcases Op.apply_cases throws fuel w op ih hv with ⟨w2, h2, _⟩ | ⟨w2, h2, hinv2⟩
    · rw [happ] at h2
      cases h2
    · rw [happ] at h2
      injection h2 with h2
      rw [h2]; exact hinv2

/-- C14: in every state reached from default-constructed lists by calls of
`PushFront`, `PopFront`, `InsertAfter` and `EraseAfter` at positions of the
list, `Clear`, `Copy`, copy assignment and `swap` (also when a copy throws),
`GetSize()` of every list is the number of nodes after the sentinel:
following `next_node` from `head_.next_node` reaches `nullptr` after exactly
`GetSize()` steps and not before, and these nodes are what the list iterates
over. From such a state every call made within the contract returns or throws. -/
theorem size_invariant_spec (throws : Nat → α → Bool) (fuel : Nat) (w : World α)
    (hr : Reachable throws fuel w) (o : Nat) :
    (∃ nodes, Holds w.heap (w.objs o) nodes ∧ (w.objs o).GetSize = nodes.length ∧
        toList (w.objs o).GetSize w.heap (w.objs o) = Outcome.ok (values nodes)) ∧
      follow w.heap (w.objs o).GetSize (w.objs o).head_next_node = some none ∧
      (∀ k, k < (w.objs o).GetSize →
        ∃ a, follow w.heap k (w.objs o).head_next_node = some (some a)) ∧
      ∀ op : Op α, op.Valid fuel w →
        ∃ w1, (op.apply throws fuel w = Outcome.ok w1 ∨
          op.apply throws fuel w = Outcome.threw w1) ∧ Reachable throws fuel w1 := by
  have hinv := Inv_of_Reachable throws fuel w hr
  obtain ⟨owned, hholds, _⟩ := hinv
  have hsz : (w.objs o).GetSize = (owned o).length := (hholds o).2
  obtain ⟨hend, hbefore⟩ := follow_of_Chain w.heap (owned o) _ (hholds o).1
  refine ⟨⟨owned o, hholds o, hsz, ?_⟩, by rw [hsz]; exact hend,
    fun k hk => hbefore k (by rw [← hsz]; exact hk), fun op hv => ?_⟩
  · exact toList_of_Holds _ _ _ _ (hholds o) (by rw [hsz])
  · rcases Op.apply_cases throws fuel w op (Inv_of_Reachable throws fuel w hr) hv with
      ⟨w1, h1, _⟩ | ⟨w1, h1, _⟩
    · exact ⟨w1, Or.inl h1, Reachable.step_ok w w1 op hr hv h1⟩
    · exact ⟨w1, Or.inr h1, Reachable.step_threw w w1 op hr hv h1⟩

theorem size_invariant_spec_witness :
    Reachable noThrow 3
        (⟨⟨[some ⟨5, none⟩]⟩, fun x => if x = 0 then ⟨some 0, 1⟩ else SingleLinkedList.empty⟩ :
          World Nat) ∧
      follow (⟨[some ⟨5, none⟩]⟩ : Heap Nat) 1 (some 0) = some none :=
  have hr : Reachable noThrow 3
      (⟨⟨[some ⟨5, none⟩]⟩, fun x => if x = 0 then ⟨some 0, 1⟩ else SingleLinkedList.empty⟩ :
        World Nat) :=
    Reachable.step_ok ⟨Heap.empty, fun _ => SingleLinkedList.empty⟩ _
      (Op.mutate 0 (Mutation.pushFront 5)) (Reachable.init Heap.empty)
      ⟨⟨[], ⟨rfl, rfl⟩, trivial⟩, Nat.zero_le _⟩ rfl
  ⟨hr, (size_invariant_spec noThrow 3 _ hr 0).2.1⟩

end ReachableSteps

end SLL
